import Mathlib

/-!
Formal model of the duplicate-media finder (src/scan_media.py and src/app.py).

Modelling conventions:
* File paths are resolved absolute POSIX-style path strings, so `Path.resolve()`
  is the identity on them.
* File contents are modelled by numeric content ids; the filesystem is an
  association list from path to content id.
* SHA-256 is modelled as an abstract function of the byte stream fed to it
  (the claims are about which bytes are fed, never about the hash function).
* Perceptual hashes are modelled as the bit vectors the hex strings denote.
-/

/-- Split a character list at each '/' (mirrors how `pathlib` decomposes a
resolved POSIX path into components). -/
def splitCharsOnSlash : List Char → List (List Char)
  | [] => [[]]
  | c :: cs =>
    let r := splitCharsOnSlash cs
    if c = '/' then [] :: r
    else
      match r with
      | [] => [[c]]
      | h :: t => (c :: h) :: t

/-- Path components of a path string. -/
def splitPath (p : String) : List String :=
  (splitCharsOnSlash p.data).map fun l => String.mk l

/-- Index of the last occurrence of `ch`, accumulator form. -/
def rfindCharAux (ch : Char) : List Char → Nat → Option Nat → Option Nat
  | [], _, acc => acc
  | c :: cs, i, acc => rfindCharAux ch cs (i + 1) (if c = ch then some i else acc)

/-- Index of the last occurrence of `ch` in `l` (Python `str.rfind`). -/
def rfindChar (ch : Char) (l : List Char) : Option Nat := rfindCharAux ch l 0 none

/-- Split a path into `(parent, name)` at the final '/'
(`pathlib.Path.parent` and `pathlib.Path.name`). -/
def splitParentName (p : String) : String × String :=
  match rfindChar '/' p.data with
  | some i => (String.mk (p.data.take i), String.mk (p.data.drop (i + 1)))
  | none => ("", p)

/-- Final path component (`pathlib.Path.name`). -/
def pathName (p : String) : String := (splitParentName p).2

/-- Stem of a file name: everything before the final extension
(CPython `PurePath.stem`: split at the last dot when `0 < i < len - 1`). -/
def nameStem (name : String) : String :=
  match rfindChar '.' name.data with
  | some i => if 0 < i ∧ i + 1 < name.data.length then String.mk (name.data.take i) else name
  | none => name

/-- Final extension of a file name, including the dot (CPython `PurePath.suffix`). -/
def nameSuffix (name : String) : String :=
  match rfindChar '.' name.data with
  | some i => if 0 < i ∧ i + 1 < name.data.length then String.mk (name.data.drop i) else ""
  | none => ""

/-- ASCII lower-casing of one character (`str.lower` restricted to ASCII,
which is all the extension table needs). -/
def lowerChar (c : Char) : Char :=
  if 'A' ≤ c ∧ c ≤ 'Z' then Char.ofNat (c.toNat + 32) else c

/-- ASCII lower-casing of a string. -/
def lowerStr (s : String) : String := String.mk (s.data.map lowerChar)

/-- Supported image extensions (src/scan_media.py line 26). -/
def IMAGE_EXTENSIONS : List String := [".jpg", ".jpeg", ".png", ".gif", ".webp"]

/-- Supported video extensions (src/scan_media.py line 27). -/
def VIDEO_EXTENSIONS : List String := [".mp4", ".mov", ".mkv", ".avi"]

/-- Classification of a path by extension. -/
inductive FileType where
  | image : FileType
  | video : FileType
  | other : FileType
deriving DecidableEq, Repr, Inhabited

/-- Determine file type based on extension (src/scan_media.py `get_file_type`). -/
def get_file_type (file_path : String) : FileType :=
  let ext := lowerStr (nameSuffix (pathName file_path))
  if ext ∈ IMAGE_EXTENSIONS then .image
  else if ext ∈ VIDEO_EXTENSIONS then .video
  else .other

/-- One scanned media file record (the dict built in `scan_directory`).
An empty `phash` models the empty string the source stores when no
perceptual hash is available. -/
structure FileInfo where
  file_path : String
  file_size_bytes : Nat
  file_type : FileType
  hash : String
  phash : List Bool
deriving DecidableEq, Repr, Inhabited

/-- Ordered association-list lookup. -/
def assocLookup {κ β : Type} [DecidableEq κ] (m : List (κ × β)) (k : κ) : Option β :=
  match m with
  | [] => none
  | (k', v) :: rest => if k' = k then some v else assocLookup rest k

/-- Append `v` to the bucket of `k`, creating the bucket at the end if absent
(the behaviour of `defaultdict(list)[k].append(v)` in an insertion-ordered dict). -/
def appendAssoc {κ β : Type} [DecidableEq κ] (m : List (κ × List β)) (k : κ) (v : β) :
    List (κ × List β) :=
  match m with
  | [] => [(k, [v])]
  | (k', vs) :: rest => if k' = k then (k', vs ++ [v]) :: rest else (k', vs) :: appendAssoc rest k v

/-- Group a list into buckets keyed by `key`, bucket elements mapped through `val`,
keys in first-encounter order. -/
def groupFold {α κ β : Type} [DecidableEq κ] (key : α → κ) (val : α → β) (l : List α) :
    List (κ × List β) :=
  l.foldl (fun m a => appendAssoc m (key a) (val a)) []

/-- Hash-to-paths table built by `find_duplicates` before filtering
(src/scan_media.py lines 288-292). -/
def hashToFiles (files_data : List FileInfo) : List (String × List String) :=
  groupFold (fun f => f.hash) (fun f => f.file_path) files_data

/-- Find duplicate files based on hash (src/scan_media.py `find_duplicates`):
buckets by content hash, keeping only buckets with more than one path. -/
def find_duplicates (files_data : List FileInfo) : List (String × List String) :=
  (hashToFiles files_data).filter fun g => 1 < g.2.length

theorem appendAssoc_lookup {κ β : Type} [DecidableEq κ] (m : List (κ × List β)) (k k' : κ)
    (v : β) :
    assocLookup (appendAssoc m k v) k' =
      if k' = k then some ((assocLookup m k).getD [] ++ [v]) else assocLookup m k' := by
  induction m with
  | nil =>
    by_cases h : k' = k
    · subst h; simp [appendAssoc, assocLookup]
    · simp [appendAssoc, assocLookup, h, Ne.symm h]
  | cons e rest ih =>
    obtain ⟨ke, ve⟩ := e
    by_cases hek : ke = k
    · subst hek
      by_cases h : ke = k'
      · subst h; simp [appendAssoc, assocLookup]
      · simp [appendAssoc, assocLookup, h, Ne.symm h]
    · by_cases h : ke = k'
      · subst h
        simp [appendAssoc, assocLookup, hek, Ne.symm hek, ih]
      · simp [appendAssoc, assocLookup, hek, h, ih]

theorem appendAssoc_keys {κ β : Type} [DecidableEq κ] (m : List (κ × List β)) (k : κ) (v : β) :
    (appendAssoc m k v).map Prod.fst =
      if k ∈ m.map Prod.fst then m.map Prod.fst else m.map Prod.fst ++ [k] := by
  induction m with
  | nil => simp [appendAssoc]
  | cons e rest ih =>
    obtain ⟨ke, ve⟩ := e
    by_cases hek : ke = k
    · subst hek
      simp [appendAssoc]
    · simp only [appendAssoc, if_neg hek, List.map_cons, ih, List.mem_cons]
      by_cases hc : k ∈ rest.map Prod.fst <;> simp [hc, Ne.symm hek]

theorem groupFold_lookup {α κ β : Type} [DecidableEq κ] (key : α → κ) (val : α → β)
    (l : List α) (k : κ) :
    assocLookup (groupFold key val l) k =
      if ∃ a ∈ l, key a = k then
        some ((l.filter fun a => decide (key a = k)).map val)
      else none := by
  suffices h : ∀ (m : List (κ × List β)),
      assocLookup (l.foldl (fun m a => appendAssoc m (key a) (val a)) m) k =
        if ∃ a ∈ l, key a = k then
          some ((assocLookup m k).getD [] ++ (l.filter fun a => decide (key a = k)).map val)
        else assocLookup m k by
    rw [groupFold, h]
    by_cases hc : ∃ a ∈ l, key a = k <;> simp [assocLookup, hc]
  induction l with
  | nil => simp
  | cons a rest ih =>
    intro m
    simp only [List.foldl_cons, List.filter_cons]
    by_cases ha : key a = k
    · subst ha
      simp only [decide_eq_true_eq, if_pos rfl, ih, appendAssoc_lookup, if_pos rfl]
      by_cases hc : ∃ x ∈ rest, key x = key a
      · have : ∃ x ∈ a :: rest, key x = key a := ⟨a, List.mem_cons_self a rest, rfl⟩
        simp [hc, this]
      · have h1 : ∃ x ∈ a :: rest, key x = key a := ⟨a, List.mem_cons_self a rest, rfl⟩
        have h2 : (rest.filter fun x => decide (key x = key a)) = [] := by
          rw [List.filter_eq_nil_iff]
          intro x hx
          simp only [decide_eq_true_eq]
          exact fun hk => hc ⟨x, hx, hk⟩
        simp [hc, h1, h2]
    · simp only [decide_eq_true_eq, ha, if_neg ha, ih, appendAssoc_lookup,
        if_neg (Ne.symm ha)]
      simp [ha]

theorem groupFold_keys_nodup {α κ β : Type} [DecidableEq κ] (key : α → κ) (val : α → β)
    (l : List α) : ((groupFold key val l).map Prod.fst).Nodup := by
  suffices h : ∀ (m : List (κ × List β)), (m.map Prod.fst).Nodup →
      ((l.foldl (fun m a => appendAssoc m (key a) (val a)) m).map Prod.fst).Nodup by
    exact h [] (by simp)
  induction l with
  | nil => intro m hm; simpa using hm
  | cons a rest ih =>
    intro m hm
    simp only [List.foldl_cons]
    apply ih
    rw [appendAssoc_keys]
    by_cases hc : key a ∈ m.map Prod.fst
    · rw [if_pos hc]; exact hm
    · rw [if_neg hc]
      exact hm.append (List.nodup_singleton _)
        (fun x hx hk => hc ((List.mem_singleton.mp hk) ▸ hx))

/-- Membership in an association list with nodup keys is determined by lookup. -/
theorem assoc_mem_iff_lookup {κ β : Type} [DecidableEq κ] (m : List (κ × β)) (k : κ) (v : β)
    (hnd : (m.map Prod.fst).Nodup) : (k, v) ∈ m ↔ assocLookup m k = some v := by
  induction m with
  | nil => simp [assocLookup]
  | cons e rest ih =>
    obtain ⟨ke, ve⟩ := e
    simp only [List.map_cons, List.nodup_cons] at hnd
    by_cases hek : ke = k
    · subst hek
      simp only [assocLookup, if_pos rfl, List.mem_cons]
      constructor
      · rintro (h | h)
        · simpa using h.symm
        · exact absurd (List.mem_map.mpr ⟨(ke, v), h, rfl⟩) hnd.1
      · rintro h
        left
        simpa using h.symm
    · simp only [assocLookup, if_neg hek, List.mem_cons]
      rw [← ih hnd.2]
      constructor
      · rintro (h | h)
        · exact absurd (congrArg Prod.fst h).symm hek
        · exact h
      · exact fun h => Or.inr h

/-- Lexicographic comparison of character lists by code point
(Python `str.__lt__` compares strings exactly this way). -/
def charListLt : List Char → List Char → Bool
  | [], [] => false
  | [], _ :: _ => true
  | _ :: _, [] => false
  | a :: as, b :: bs => if a < b then true else if b < a then false else charListLt as bs

/-- Python string comparison `a < b`. -/
def strLt (a b : String) : Bool := charListLt a.data b.data

/-- Insert into an already sorted list (ascending by `strLt`). -/
def insertSorted (a : String) : List String → List String
  | [] => [a]
  | b :: bs => if strLt b a then b :: insertSorted a bs else a :: b :: bs

/-- Ascending stable sort of strings: the model of Python `sorted` on path lists. -/
def sortedStrs (l : List String) : List String := l.foldr insertSorted []

/-- First `n` characters of a string (Python slicing `s[:n]`). -/
def strTake (s : String) (n : Nat) : String := String.mk (s.data.take n)

/-- Duplicate groups as surfaced by the scan API
(src/app.py lines 346-353): shortened digest, member path list and count,
with the path lists passed through unchanged from `find_duplicates`. -/
def scan_duplicate_groups (files_data : List FileInfo) : List (String × List String × Nat) :=
  (find_duplicates files_data).map fun g => (strTake g.1 16 ++ "...", g.2, g.2.length)

/-- Demo record: path "/r/b.jpg", digest "h", encountered first by the walk. -/
def fiB : FileInfo :=
  { file_path := "/r/b.jpg", file_size_bytes := 3, file_type := FileType.image,
    hash := "h", phash := [] }

/-- Demo record: path "/r/a.jpg", digest "h", encountered second by the walk. -/
def fiA : FileInfo :=
  { file_path := "/r/a.jpg", file_size_bytes := 3, file_type := FileType.image,
    hash := "h", phash := [] }

/-- C3 counterexample: `find_duplicates` keeps member paths in input-encounter
order, not lexicographic order. With records encountered in the order
"/r/b.jpg", "/r/a.jpg" (`os.walk` order is arbitrary), the produced group
lists "/r/b.jpg" first even though "/r/a.jpg" is lexicographically smaller,
so the group is not sorted and its head is not the lexicographically
first path. -/
theorem find_duplicates_unsorted_counterexample :
    find_duplicates [fiB, fiA] = [("h", ["/r/b.jpg", "/r/a.jpg"])] ∧
    strLt "/r/a.jpg" "/r/b.jpg" = true ∧
    sortedStrs ["/r/b.jpg", "/r/a.jpg"] ≠ ["/r/b.jpg", "/r/a.jpg"] := by
  decide

/-- C3 (amended): each group produced by `find_duplicates` lists its member
paths in input-encounter order (the order of the records in `files_data`),
has more than one member, and the scan API surfaces exactly those lists. -/
theorem find_duplicates_groups_in_input_order (files_data : List FileInfo) (h : String)
    (ps : List String) (hmem : (h, ps) ∈ find_duplicates files_data) :
    ps = ((files_data.filter fun f => decide (f.hash = h)).map fun f => f.file_path) ∧
    1 < ps.length ∧
    (scan_duplicate_groups files_data).map (fun t => t.2.1) =
      (find_duplicates files_data).map Prod.snd := by
  rw [find_duplicates] at hmem
  have hmem' := List.mem_filter.mp hmem
  have hnd := groupFold_keys_nodup (fun f : FileInfo => f.hash) (fun f => f.file_path) files_data
  have hlk := (assoc_mem_iff_lookup _ h ps hnd).mp hmem'.1
  simp only [hashToFiles, groupFold_lookup] at hlk
  refine ⟨?_, ?_, ?_⟩
  · by_cases hc : ∃ a ∈ files_data, FileInfo.hash a = h
    · rw [if_pos hc] at hlk
      exact (Option.some_injective _ hlk).symm
    · rw [if_neg hc] at hlk
      exact absurd hlk (Option.noConfusion)
  · simpa using hmem'.2
  · simp [scan_duplicate_groups]

/-- Witness for the amended C3 theorem at a concrete input. -/
theorem find_duplicates_groups_in_input_order_witness :
    ["/r/b.jpg", "/r/a.jpg"] =
      (([fiB, fiA].filter fun f => decide (f.hash = "h")).map fun f => f.file_path) ∧
    1 < (["/r/b.jpg", "/r/a.jpg"] : List String).length ∧
    (scan_duplicate_groups [fiB, fiA]).map (fun t => t.2.1) =
      (find_duplicates [fiB, fiA]).map Prod.snd :=
  find_duplicates_groups_in_input_order [fiB, fiA] "h" ["/r/b.jpg", "/r/a.jpg"] (by decide)

/-- Increment the counter of key `k` (`defaultdict(int)` increment,
src/scan_media.py lines 311-314). -/
def incAssoc (m : List (String × Nat)) (k : String) : List (String × Nat) :=
  match m with
  | [] => [(k, 1)]
  | (k', c) :: rest => if k' = k then (k', c + 1) :: rest else (k', c) :: incAssoc rest k

/-- Number of records per content hash (src/scan_media.py `add_duplicate_group_ids`,
first loop). -/
def hash_counts (files_data : List FileInfo) : List (String × Nat) :=
  files_data.foldl (fun m f => incAssoc m f.hash) []

/-- Add `duplicate_group_id` to each file based on hash frequency
(src/scan_media.py `add_duplicate_group_ids`): each record is paired with
the count of its own hash. -/
def add_duplicate_group_ids (files_data : List FileInfo) : List (FileInfo × Nat) :=
  files_data.map fun f => (f, (assocLookup (hash_counts files_data) f.hash).getD 0)

theorem incAssoc_lookup (m : List (String × Nat)) (k h : String) :
    (assocLookup (incAssoc m k) h).getD 0 =
      (assocLookup m h).getD 0 + if h = k then 1 else 0 := by
  induction m with
  | nil =>
    by_cases hh : h = k
    · subst hh; simp [incAssoc, assocLookup]
    · simp [incAssoc, assocLookup, Ne.symm hh, hh]
  | cons e rest ih =>
    obtain ⟨ke, ce⟩ := e
    by_cases hek : ke = k
    · subst hek
      by_cases hh : ke = h
      · subst hh; simp [incAssoc, assocLookup]
      · simp [incAssoc, assocLookup, hh, Ne.symm hh]
    · by_cases hh : ke = h
      · subst hh
        simp [incAssoc, assocLookup, hek, Ne.symm hek]
      · simp [incAssoc, assocLookup, hek, hh, Ne.symm hh, ih]

theorem hash_counts_lookup (files_data : List FileInfo) (h : String) :
    (assocLookup (hash_counts files_data) h).getD 0 =
      files_data.countP fun f => decide (f.hash = h) := by
  suffices hgen : ∀ (m : List (String × Nat)),
      (assocLookup (files_data.foldl (fun m f => incAssoc m f.hash) m) h).getD 0 =
        (assocLookup m h).getD 0 + files_data.countP (fun f => decide (f.hash = h)) by
    simpa [assocLookup] using hgen []
  induction files_data with
  | nil => simp
  | cons f rest ih =>
    intro m
    simp only [List.foldl_cons, List.countP_cons, ih, incAssoc_lookup]
    by_cases hf : f.hash = h
    · simp [hf.symm]
      omega
    · simp [hf, Ne.symm hf]

/-- C8: `add_duplicate_group_ids` pairs every record with the cardinality of
the content-digest partition it belongs to (the number of records sharing
its digest); the value is 1 exactly when the record is the only one with
its digest. -/
theorem add_duplicate_group_ids_partition_size (files_data : List FileInfo) :
    add_duplicate_group_ids files_data =
      files_data.map (fun f => (f, files_data.countP fun g => decide (g.hash = f.hash))) ∧
    ∀ f ∈ files_data,
      (files_data.countP (fun g => decide (g.hash = f.hash)) = 1 ↔
        files_data.filter (fun g => decide (g.hash = f.hash)) = [f]) := by
  constructor
  · unfold add_duplicate_group_ids
    apply List.map_congr_left
    intro f _
    rw [hash_counts_lookup]
  · intro f hf
    rw [List.countP_eq_length_filter]
    constructor
    · intro h1
      have hmem : f ∈ files_data.filter (fun g => decide (g.hash = f.hash)) :=
        List.mem_filter.mpr ⟨hf, by simp⟩
      obtain ⟨x, hx⟩ := List.length_eq_one.mp h1
      rw [hx] at hmem ⊢
      rcases List.mem_singleton.mp hmem with rfl
      rfl
    · intro h1
      rw [h1]
      rfl

/-- Chunked reading loop of `compute_file_hash` (src/scan_media.py lines 44-47):
`f.read(chunk_size)` yields the next `chunk_size` bytes; the loop ends when a
read returns the empty byte string (also immediately when `chunk_size = 0`,
since `f.read(0)` returns `b""`). -/
def readChunks (chunk_size : Nat) (content : List Nat) : List (List Nat) :=
  if chunk_size = 0 ∨ content = [] then []
  else content.take chunk_size :: readChunks chunk_size (content.drop chunk_size)
termination_by content.length
decreasing_by
  rename_i h
  push_neg at h
  have h0 : 0 < chunk_size := Nat.pos_of_ne_zero h.1
  have h1 : 0 < content.length := List.length_pos.mpr h.2
  simp only [List.length_drop]
  omega

/-- Model of `compute_file_hash` (src/scan_media.py lines 30-51): the returned
digest is an abstract hash function `H` applied to the concatenation of the
chunks successively fed to `sha256.update`. -/
def compute_file_hash (H : List Nat → String) (content : List Nat) (chunk_size : Nat) : String :=
  H (readChunks chunk_size content).flatten

theorem readChunks_join (c : Nat) (hc : 0 < c) (content : List Nat) :
    (readChunks c content).flatten = content := by
  generalize hn : content.length = n
  induction n using Nat.strong_induction_on generalizing content with
  | _ n ih =>
    rw [readChunks]
    by_cases h : c = 0 ∨ content = []
    · rcases h with h | h
      · omega
      · subst h; simp
    · rw [if_neg h]
      push_neg at h
      have hlen : (content.drop c).length < n := by
        rw [List.length_drop]
        have h1 : 0 < content.length := List.length_pos.mpr h.2
        omega
      rw [List.flatten_cons, ih _ hlen _ rfl]
      exact List.take_append_drop c content

/-- C6: the digest computed by `compute_file_hash` only depends on the byte
content, not on the (positive) chunk size used to stream it. -/
theorem compute_file_hash_chunk_size_independent (H : List Nat → String)
    (content : List Nat) (c1 c2 : Nat) (h1 : 0 < c1) (h2 : 0 < c2) :
    compute_file_hash H content c1 = compute_file_hash H content c2 := by
  unfold compute_file_hash
  rw [readChunks_join c1 h1, readChunks_join c2 h2]

/-- Witness for C6 at a concrete content, hash function and chunk sizes 1 and 2. -/
theorem compute_file_hash_chunk_size_independent_witness :
    0 < 1 ∧ 0 < 2 ∧
    compute_file_hash (fun l => Nat.repr l.length) [7, 8, 9] 1 =
      compute_file_hash (fun l => Nat.repr l.length) [7, 8, 9] 2 :=
  ⟨by decide, by decide,
    compute_file_hash_chunk_size_independent (fun l => Nat.repr l.length) [7, 8, 9] 1 2
      (by decide) (by decide)⟩


/-- Decimal character rendering of a natural number. -/
def decChars (n : Nat) : List Char :=
  if n = 0 then ['0'] else ((Nat.digits 10 n).map Nat.digitChar).reverse

theorem toDigitsCore_eq_decChars :
    ∀ (f n : Nat) (ds : List Char), n < f →
      Nat.toDigitsCore 10 f n ds = decChars n ++ ds := by
  intro f
  induction f with
  | zero => intro n ds h; omega
  | succ f ih =>
    intro n ds h
    rw [Nat.toDigitsCore]
    by_cases h0 : n / 10 = 0
    · rw [if_pos h0]
      by_cases hn : n = 0
      · subst hn; simp [decChars, Nat.digitChar]
      · have hd : Nat.digits 10 n = [n % 10] := by
          rw [Nat.digits_def' (by norm_num) (Nat.pos_of_ne_zero hn), h0]
          simp
        simp [decChars, hn, hd]
    · rw [if_neg h0]
      have hn : n ≠ 0 := by
        intro hh; subst hh; simp at h0
      have hlt : n / 10 < f := by
        have : n / 10 < n := Nat.div_lt_self (Nat.pos_of_ne_zero hn) (by norm_num)
        omega
      rw [ih _ _ hlt]
      have hd : Nat.digits 10 n = n % 10 :: Nat.digits 10 (n / 10) := by
        exact Nat.digits_def' (by norm_num) (Nat.pos_of_ne_zero hn)
      simp [decChars, hn, h0, hd, List.append_assoc]

theorem digitChar_inj_lt10 : ∀ a < 10, ∀ b < 10, Nat.digitChar a = Nat.digitChar b → a = b := by
  decide

theorem decChars_injective : Function.Injective decChars := by
  intro m n h
  by_cases hm : m = 0 <;> by_cases hn : n = 0
  · omega
  · exfalso
    subst hm
    simp only [decChars, if_pos rfl, if_neg hn] at h
    have h2 : (Nat.digits 10 n).map Nat.digitChar = ['0'] := by
      have := congrArg List.reverse h
      simpa using this.symm
    have h3 : ∃ d, Nat.digits 10 n = [d] ∧ Nat.digitChar d = '0' := by
      rcases hl : Nat.digits 10 n with _ | ⟨d, rest⟩
      · rw [hl] at h2; simp at h2
      · rw [hl] at h2
        simp at h2
        exact ⟨d, by simp [h2.2.symm], h2.1⟩
    rcases h3 with ⟨d, hd1, hd2⟩
    have hdlt : d < 10 := Nat.digits_lt_base (by norm_num) (hd1 ▸ List.mem_singleton_self d)
    have : d = 0 := digitChar_inj_lt10 d hdlt 0 (by norm_num) (by simpa using hd2)
    subst this
    have := Nat.ofDigits_digits 10 n
    rw [hd1] at this
    simp [Nat.ofDigits] at this
    exact hn this.symm
  · exfalso
    subst hn
    simp only [decChars, if_pos rfl, if_neg hm] at h
    have h2 : (Nat.digits 10 m).map Nat.digitChar = ['0'] := by
      have := congrArg List.reverse h
      simpa using this
    have h3 : ∃ d, Nat.digits 10 m = [d] ∧ Nat.digitChar d = '0' := by
      rcases hl : Nat.digits 10 m with _ | ⟨d, rest⟩
      · rw [hl] at h2; simp at h2
      · rw [hl] at h2
        simp at h2
        exact ⟨d, by simp [h2.2.symm], h2.1⟩
    rcases h3 with ⟨d, hd1, hd2⟩
    have hdlt : d < 10 := Nat.digits_lt_base (by norm_num) (hd1 ▸ List.mem_singleton_self d)
    have : d = 0 := digitChar_inj_lt10 d hdlt 0 (by norm_num) (by simpa using hd2)
    subst this
    have := Nat.ofDigits_digits 10 m
    rw [hd1] at this
    simp [Nat.ofDigits] at this
    exact hm this.symm
  · simp only [decChars, if_neg hm, if_neg hn] at h
    have h2 := congrArg List.reverse h
    simp only [List.reverse_reverse] at h2
    have h3 : Nat.digits 10 m = Nat.digits 10 n := by
      have hall : ∀ (l1 l2 : List Nat), (∀ d ∈ l1, d < 10) → (∀ d ∈ l2, d < 10) →
          l1.map Nat.digitChar = l2.map Nat.digitChar → l1 = l2 := by
        intro l1
        induction l1 with
        | nil => intro l2 _ _ hh; cases l2 <;> simp_all
        | cons d1 t1 ih =>
          intro l2 h1 h2 hh
          cases l2 with
          | nil => simp at hh
          | cons d2 t2 =>
            simp only [List.map_cons, List.cons.injEq] at hh
            have hd : d1 = d2 :=
              digitChar_inj_lt10 d1 (h1 d1 (by simp)) d2 (h2 d2 (by simp)) hh.1
            have ht : t1 = t2 := ih t2 (fun d hd => h1 d (by simp [hd]))
              (fun d hd => h2 d (by simp [hd])) hh.2
            rw [hd, ht]
      exact hall _ _ (fun d hd => Nat.digits_lt_base (by norm_num) hd)
        (fun d hd => Nat.digits_lt_base (by norm_num) hd) h2
    have := Nat.ofDigits_digits 10 m
    rw [h3, Nat.ofDigits_digits] at this
    exact this.symm

theorem Nat_repr_injective : Function.Injective Nat.repr := by
  intro m n h
  apply decChars_injective
  have hm : Nat.repr m = (decChars m).asString := by
    rw [Nat.repr, Nat.toDigits, toDigitsCore_eq_decChars (m + 1) m [] (Nat.lt_succ_self m)]
    simp
  have hn : Nat.repr n = (decChars n).asString := by
    rw [Nat.repr, Nat.toDigits, toDigitsCore_eq_decChars (n + 1) n [] (Nat.lt_succ_self n)]
    simp
  rw [hm, hn] at h
  have := congrArg String.data h
  simpa [List.asString] using this

/-- The filesystem: an ordered list of `(path, content id)` entries, one per
existing regular file. Real filesystems have at most one entry per path;
theorems that need this assume key-nodup explicitly. -/
abbrev FS := List (String × Nat)

/-- Existence check, `Path.exists()`. -/
def fsExists (fs : FS) (p : String) : Bool := fs.any fun e => decide (e.1 = p)

/-- Content id stored at path `p` (first entry wins). -/
def fsGet (fs : FS) (p : String) : Nat := (assocLookup fs p).getD 0

/-- Remove the (first) entry of path `p` (the source entry after `shutil.move`). -/
def fsRemove (fs : FS) (p : String) : FS :=
  match fs with
  | [] => []
  | e :: rest => if e.1 = p then rest else e :: fsRemove rest p

/-- Candidate collision name number `k`:
`destination_file_path.parent / f"{stem}_{counter}{suffix}"`. -/
def mkCand (dir stem sfx : String) (k : Nat) : String :=
  dir ++ "/" ++ stem ++ "_" ++ Nat.repr k ++ sfx

/-- The retry loop of the collision policy (src/scan_media.py lines 384-391,
src/app.py lines 220-227): while the candidate destination exists, rebuild it
as `{stem}_{counter}{suffix}` with `counter` counting up from 1. The Python
`while` loop carries no explicit bound; it terminates because candidate names
are pairwise distinct and only finitely many files exist, so a fuel of
`fs.length + 1` is sufficient (proved in `collisionLoop_min_free`). -/
def collisionLoop (fs : FS) (dir stem sfx : String) (counter fuel : Nat) : String :=
  match fuel with
  | 0 => mkCand dir stem sfx counter
  | fuel + 1 =>
    if fsExists fs (mkCand dir stem sfx counter) then
      collisionLoop fs dir stem sfx (counter + 1) fuel
    else mkCand dir stem sfx counter

/-- Collision handling around a tentative destination: keep the target if it
is free, otherwise run the retry loop from counter 1 on its stem/suffix. -/
def resolveCollision (fs : FS) (target : String) : String :=
  if fsExists fs target then
    collisionLoop fs (splitParentName target).1 (nameStem (splitParentName target).2)
      (nameSuffix (splitParentName target).2) 1 (fs.length + 1)
  else target

theorem mkCand_injective (dir stem sfx : String) : Function.Injective (mkCand dir stem sfx) := by
  intro k1 k2 h
  apply Nat_repr_injective
  have hd := congrArg String.data h
  simp only [mkCand, String.data_append] at hd
  have h1 := List.append_cancel_right hd
  have h6 : (Nat.repr k1).data = (Nat.repr k2).data := List.append_cancel_left h1
  cases hr1 : Nat.repr k1 with
  | mk d1 =>
    cases hr2 : Nat.repr k2 with
    | mk d2 =>
      rw [hr1, hr2] at h6
      exact congrArg String.mk h6

theorem fsExists_iff_mem_keys (fs : FS) (p : String) :
    fsExists fs p = true ↔ p ∈ fs.map Prod.fst := by
  simp only [fsExists, List.any_eq_true, decide_eq_true_eq, List.mem_map]

/-- Pigeonhole: among any `fs.length + 1` consecutive counters some candidate
name is not an existing path. -/
theorem exists_free_cand (fs : FS) (dir stem sfx : String) (counter : Nat) :
    ∃ k, counter ≤ k ∧ k < counter + (fs.length + 1) ∧
      fsExists fs (mkCand dir stem sfx k) = false := by
  by_contra hall
  push_neg at hall
  have hocc : ∀ k, counter ≤ k → k < counter + (fs.length + 1) →
      mkCand dir stem sfx k ∈ fs.map Prod.fst := by
    intro k h1 h2
    have := hall k h1 h2
    rw [← fsExists_iff_mem_keys]
    revert this
    cases fsExists fs (mkCand dir stem sfx k) <;> simp
  set cands : List String :=
    (List.range (fs.length + 1)).map (fun i => mkCand dir stem sfx (counter + i)) with hc
  have hnd : cands.Nodup := by
    refine List.Nodup.map ?_ (List.nodup_range _)
    intro a b hab
    have := mkCand_injective dir stem sfx hab
    omega
  have hsub : cands.toFinset ⊆ (fs.map Prod.fst).toFinset := by
    intro x hx
    rw [List.mem_toFinset] at hx ⊢
    rw [hc] at hx
    rcases List.mem_map.mp hx with ⟨i, hi, rfl⟩
    exact hocc _ (Nat.le_add_right _ _) (by have := List.mem_range.mp hi; omega)
  have hcard1 : cands.toFinset.card = fs.length + 1 := by
    rw [List.toFinset_card_of_nodup hnd, hc, List.length_map, List.length_range]
  have hcard2 : (fs.map Prod.fst).toFinset.card ≤ fs.length := by
    calc (fs.map Prod.fst).toFinset.card ≤ (fs.map Prod.fst).length :=
          List.toFinset_card_le _
      _ = fs.length := List.length_map _ _
  have := Finset.card_le_card hsub
  omega

/-- The retry loop returns the candidate of the least free counter in range,
provided some counter in range is free. -/
theorem collisionLoop_min_free (fs : FS) (dir stem sfx : String) :
    ∀ (fuel counter : Nat),
      (∃ k, counter ≤ k ∧ k < counter + fuel ∧
        fsExists fs (mkCand dir stem sfx k) = false) →
      ∃ k, counter ≤ k ∧ k < counter + fuel ∧
        collisionLoop fs dir stem sfx counter fuel = mkCand dir stem sfx k ∧
        fsExists fs (mkCand dir stem sfx k) = false ∧
        ∀ m, counter ≤ m → m < k → fsExists fs (mkCand dir stem sfx m) = true := by
  intro fuel
  induction fuel with
  | zero =>
    rintro counter ⟨k, h1, h2, _⟩
    omega
  | succ fuel ih =>
    rintro counter ⟨k, h1, h2, hk⟩
    by_cases hc : fsExists fs (mkCand dir stem sfx counter) = true
    · have hkc : counter ≠ k := by
        rintro rfl
        rw [hc] at hk
        exact Bool.noConfusion hk
      obtain ⟨k', h1', h2', heq, hfree, hmin⟩ := ih (counter + 1) ⟨k, by omega, by omega, hk⟩
      refine ⟨k', by omega, by omega, ?_, hfree, ?_⟩
      · rw [collisionLoop, if_pos hc]
        exact heq
      · intro m hm1 hm2
        rcases Nat.eq_or_lt_of_le hm1 with rfl | hm
        · exact hc
        · exact hmin m hm hm2
    · refine ⟨counter, le_refl _, by omega, ?_, ?_, by omega⟩
      · have hc' : fsExists fs (mkCand dir stem sfx counter) = false := by
          revert hc; cases fsExists fs (mkCand dir stem sfx counter) <;> simp
        rw [collisionLoop, hc']
        simp
      · revert hc
        cases fsExists fs (mkCand dir stem sfx counter) <;> simp

theorem charListLt_irrefl : ∀ x : List Char, charListLt x x = false := by
  intro x
  induction x with
  | nil => rfl
  | cons a as ih => simp [charListLt, ih]

theorem charListLt_trans : ∀ x y z : List Char,
    charListLt x y = true → charListLt y z = true → charListLt x z = true := by
  intro x
  induction x with
  | nil =>
    intro y z hxy hyz
    cases y with
    | nil => exact hyz
    | cons b bs =>
      cases z with
      | nil => simp [charListLt] at hyz
      | cons c cs => rfl
  | cons a as ih =>
    intro y z hxy hyz
    cases y with
    | nil => simp [charListLt] at hxy
    | cons b bs =>
      cases z with
      | nil => simp [charListLt] at hyz
      | cons c cs =>
        simp only [charListLt] at hxy hyz ⊢
        by_cases hab : a < b
        · by_cases hbc : b < c
          · have hac : a < c := lt_trans hab hbc
            simp [hac]
          · by_cases hcb : c < b
            · simp [hbc, hcb] at hyz
            · have hbc' : b = c := le_antisymm (not_lt.mp hcb) (not_lt.mp hbc)
              subst hbc'
              simp [hab]
        · by_cases hba : b < a
          · simp [hab, hba] at hxy
          · have hab' : a = b := le_antisymm (not_lt.mp hba) (not_lt.mp hab)
            subst hab'
            simp only [lt_irrefl, if_false] at hxy
            by_cases hbc : a < c
            · simp [hbc]
            · by_cases hcb : c < a
              · simp [hbc, hcb] at hyz
              · have : a = c := le_antisymm (not_lt.mp hcb) (not_lt.mp hbc)
                subst this
                simp only [lt_irrefl, if_false] at hyz ⊢
                exact ih bs cs hxy hyz

theorem charListLt_antisymm : ∀ x y : List Char,
    charListLt x y = false → charListLt y x = false → x = y := by
  intro x
  induction x with
  | nil =>
    intro y hxy _
    cases y with
    | nil => rfl
    | cons b bs => simp [charListLt] at hxy
  | cons a as ih =>
    intro y hxy hyx
    cases y with
    | nil => simp [charListLt] at hyx
    | cons b bs =>
      simp only [charListLt] at hxy hyx
      by_cases hab : a < b
      · simp [hab] at hxy
      · by_cases hba : b < a
        · simp [hba] at hyx
        · have hab' : a = b := le_antisymm (not_lt.mp hba) (not_lt.mp hab)
          subst hab'
          simp only [lt_irrefl, if_false] at hxy hyx
          rw [ih bs hxy hyx]

theorem strLt_irrefl (a : String) : strLt a a = false := charListLt_irrefl a.data

theorem strLt_trans {a b c : String} (h1 : strLt a b = true) (h2 : strLt b c = true) :
    strLt a c = true := charListLt_trans a.data b.data c.data h1 h2

theorem strLt_total (a b : String) : strLt a b = false ∨ strLt b a = false := by
  by_cases h1 : strLt a b = true
  · right
    by_cases h2 : strLt b a = true
    · have := strLt_trans h1 h2
      rw [strLt_irrefl] at this
      exact Bool.noConfusion this
    · revert h2; cases strLt b a <;> simp
  · left
    revert h1; cases strLt a b <;> simp

/-- The sort order used by the model of `sorted`: `a` may precede `b` when `b`
is not strictly below `a`. -/
def sortRel (a b : String) : Prop := strLt b a = false

theorem sortRel_trans {a b c : String} (h1 : sortRel a b) (h2 : sortRel b c) : sortRel a c := by
  unfold sortRel at h1 h2 ⊢
  by_contra hca
  have hca' : strLt c a = true := by
    revert hca; cases strLt c a <;> simp
  by_cases hbc : strLt b c = true
  · have hba := strLt_trans hbc hca'
    rw [hba] at h1
    exact Bool.noConfusion h1
  · have hbc' : strLt b c = false := by
      revert hbc; cases strLt b c <;> simp
    have hcb' : strLt c b = false := h2
    have hbceq : b = c := by
      have := charListLt_antisymm b.data c.data hbc' hcb'
      cases b; cases c
      simpa using congrArg String.mk this
    subst hbceq
    rw [h1] at hca'
    exact Bool.noConfusion hca'

theorem insertSorted_perm (a : String) (l : List String) :
    List.Perm (insertSorted a l) (a :: l) := by
  induction l with
  | nil => exact List.Perm.refl _
  | cons b bs ih =>
    rw [insertSorted]
    by_cases hb : strLt b a = true
    · rw [if_pos hb]
      exact List.Perm.trans (List.Perm.cons b ih) (List.Perm.swap a b bs)
    · rw [if_neg hb]

theorem insertSorted_pairwise (a : String) (l : List String)
    (h : List.Pairwise sortRel l) : List.Pairwise sortRel (insertSorted a l) := by
  induction l with
  | nil => simp [insertSorted, List.pairwise_singleton]
  | cons b bs ih =>
    rw [insertSorted]
    rcases List.pairwise_cons.mp h with ⟨hb, hbs⟩
    by_cases hba : strLt b a = true
    · rw [if_pos hba]
      refine List.pairwise_cons.mpr ⟨?_, ih hbs⟩
      intro x hx
      have hx' : x ∈ a :: bs := (insertSorted_perm a bs).mem_iff.mp hx
      rcases List.mem_cons.mp hx' with rfl | hx''
      · unfold sortRel
        rcases strLt_total b x with h | h
        · rw [h] at hba; exact Bool.noConfusion hba
        · exact h
      · exact hb x hx''
    · rw [if_neg hba]
      have hba' : sortRel a b := by
        unfold sortRel
        revert hba; cases strLt b a <;> simp
      refine List.pairwise_cons.mpr ⟨?_, h⟩
      intro x hx
      rcases List.mem_cons.mp hx with rfl | hx'
      · exact hba'
      · exact sortRel_trans hba' (hb x hx')

theorem sortedStrs_perm (l : List String) : List.Perm (sortedStrs l) l := by
  induction l with
  | nil => exact List.Perm.refl _
  | cons a as ih =>
    exact List.Perm.trans (insertSorted_perm a (sortedStrs as)) (List.Perm.cons a ih)

theorem sortedStrs_pairwise (l : List String) : List.Pairwise sortRel (sortedStrs l) := by
  induction l with
  | nil => exact List.Pairwise.nil
  | cons a as ih => exact insertSorted_pairwise a (sortedStrs as) ih

/-- The head of the sorted list is a member of the original list and no member
is strictly below it: it is the lexicographically first element. -/
theorem sortedStrs_head_min (l : List String) (m : String) (rest : List String)
    (h : sortedStrs l = m :: rest) :
    m ∈ l ∧ ∀ r ∈ l, strLt r m = false := by
  have hperm := sortedStrs_perm l
  rw [h] at hperm
  constructor
  · exact hperm.mem_iff.mp (List.mem_cons_self m rest)
  · intro r hr
    have hr' : r ∈ m :: rest := hperm.mem_iff.mpr hr
    rcases List.mem_cons.mp hr' with rfl | hr''
    · exact strLt_irrefl r
    · have hp := sortedStrs_pairwise l
      rw [h] at hp
      exact (List.pairwise_cons.mp hp).1 r hr''

theorem fsRemove_exists_ne (fs : FS) (p q : String) (h : p ≠ q) :
    fsExists (fsRemove fs p) q = fsExists fs q := by
  induction fs with
  | nil => rfl
  | cons e rest ih =>
    by_cases hep : e.1 = p
    · have hq : ¬(e.1 = q) := by rw [hep]; exact h
      simp only [fsRemove, if_pos hep]
      simp only [fsExists, List.any_cons]
      rw [show decide (e.1 = q) = false from by simpa using hq]
      simp
    · simp only [fsRemove, if_neg hep]
      simp only [fsExists, List.any_cons] at ih ⊢
      rw [ih]

theorem fsRemove_exists_false (fs : FS) (p q : String) (h : fsExists fs q = false) :
    fsExists (fsRemove fs p) q = false := by
  induction fs with
  | nil => rfl
  | cons e rest ih =>
    simp only [fsExists, List.any_cons, Bool.or_eq_false_iff] at h
    by_cases hep : e.1 = p
    · simp only [fsRemove, if_pos hep]
      simp only [fsExists]
      exact h.2
    · simp only [fsRemove, if_neg hep]
      simp only [fsExists, List.any_cons, Bool.or_eq_false_iff]
      exact ⟨h.1, ih h.2⟩

theorem fsRemove_keys_sublist (fs : FS) (p : String) :
    ((fsRemove fs p).map Prod.fst).Sublist (fs.map Prod.fst) := by
  induction fs with
  | nil => simp [fsRemove]
  | cons e rest ih =>
    by_cases hep : e.1 = p
    · simp only [fsRemove, if_pos hep, List.map_cons]
      exact List.sublist_cons_of_sublist _ (List.Sublist.refl _)
    · simp only [fsRemove, if_neg hep, List.map_cons]
      exact List.Sublist.cons₂ _ ih

theorem fsRemove_exists_self (fs : FS) (p : String) (hnd : (fs.map Prod.fst).Nodup) :
    fsExists (fsRemove fs p) p = false := by
  induction fs with
  | nil => rfl
  | cons e rest ih =>
    simp only [List.map_cons, List.nodup_cons] at hnd
    by_cases hep : e.1 = p
    · simp only [fsRemove, if_pos hep]
      subst hep
      rw [← Bool.not_eq_true, fsExists_iff_mem_keys]
      exact hnd.1
    · simp only [fsRemove, if_neg hep]
      simp only [fsExists, List.any_cons, Bool.or_eq_false_iff]
      exact ⟨by simpa using hep, ih hnd.2⟩

/-- Prefix test on component lists: `source_path.relative_to(root)` succeeds
exactly when the root's components are a leading prefix of the source's. -/
def isPref : List String → List String → Bool
  | [], _ => true
  | _ :: _, [] => false
  | a :: as, b :: bs => decide (a = b) && isPref as bs

/-- Join path components onto a base path (the `pathlib` `/` operator on a
relative component list). -/
def joinPath (base : String) (comps : List String) : String :=
  comps.foldl (fun acc c => acc ++ "/" ++ c) base

/-- Tentative destination of one relocated file before collision handling
(src/scan_media.py lines 371-378, src/app.py lines 208-214): destination root
joined with the source's path relative to the scan root, or, when
`relative_to` fails because the file lies outside the scan root, the
destination root joined with the bare filename. -/
def destFor (destRoot rootDir p : String) : String :=
  if isPref (splitPath rootDir) (splitPath p) then
    joinPath destRoot ((splitPath p).drop (splitPath rootDir).length)
  else destRoot ++ "/" ++ pathName p

/-- The kinds of exception the per-file try block distinguishes
(src/scan_media.py lines 397-405). -/
inductive MoveExc where
  | permission : String → MoveExc
  | oserror : String → MoveExc
  | unexpected : String → MoveExc
deriving DecidableEq, Repr

/-- Failure oracle: whether the OS raises while moving the given source path
(permission denied, file locked, vanished mid-operation, ...). `none` means
the filesystem operations for that file succeed. -/
structure MoveEnv where
  fail : String → Option MoveExc

/-- Error message recorded for one failing file (src/scan_media.py
lines 397-405). -/
def errText (duplicate_path : String) : MoveExc → String
  | .permission m => "Permission denied: " ++ duplicate_path ++ " - " ++ m
  | .oserror m => "File locked or error: " ++ duplicate_path ++ " - " ++ m
  | .unexpected m => "Unexpected error moving " ++ duplicate_path ++ ": " ++ m

/-- State threaded through the moving loops: filesystem, move counter and
error list as in the source, plus a log of the executed `shutil.move` calls
(observational instrumentation of the filesystem mutations). -/
structure MoveState where
  fs : FS
  num_duplicates_moved : Nat
  errors : List String
  log : List (String × String)
deriving DecidableEq, Repr

/-- Body of the per-duplicate loop (src/scan_media.py lines 364-405): skip
with an error when the source is gone, record an error when the OS raises,
otherwise move the file to the collision-resolved destination. -/
def moveOneDuplicate (env : MoveEnv) (rootDir destRoot : String) (st : MoveState)
    (duplicate_path : String) : MoveState :=
  if fsExists st.fs duplicate_path = false then
    { st with errors := st.errors ++ ["File not found: " ++ duplicate_path] }
  else
    match env.fail duplicate_path with
    | some e => { st with errors := st.errors ++ [errText duplicate_path e] }
    | none =>
      let dest := resolveCollision st.fs (destFor destRoot rootDir duplicate_path)
      { fs := (dest, fsGet st.fs duplicate_path) :: fsRemove st.fs duplicate_path,
        num_duplicates_moved := st.num_duplicates_moved + 1,
        errors := st.errors,
        log := st.log ++ [(duplicate_path, dest)] }

/-- Per-group body (src/scan_media.py lines 357-364): sort the group's paths,
keep the first as the original, move every other member. -/
def processGroup (env : MoveEnv) (rootDir destRoot : String) (st : MoveState)
    (file_paths : List String) : MoveState :=
  ((sortedStrs file_paths).drop 1).foldl (moveOneDuplicate env rootDir destRoot) st

/-- Resolved destination root (src/scan_media.py lines 341-346): the explicit
folder when given, else `duplicates_review` next to the scanned directory. -/
def destinationRoot (root_directory : String) (destination_folder : Option String) : String :=
  match destination_folder with
  | some d => d
  | none => (splitParentName root_directory).1 ++ "/duplicates_review"

/-- Processing of all duplicate groups in order, starting from filesystem
`fs0` with zeroed counters. -/
def runMoveDuplicates (env : MoveEnv) (duplicates : List (String × List String))
    (rootDir destRoot : String) (fs0 : FS) : MoveState :=
  duplicates.foldl (fun st g => processGroup env rootDir destRoot st g.2)
    { fs := fs0, num_duplicates_moved := 0, errors := [], log := [] }

/-- Model of `move_duplicates` (src/scan_media.py lines 324-407): returns the
tuple `(num_duplicate_groups, num_duplicates_moved, destination_path, errors)`. -/
def move_duplicates (env : MoveEnv) (duplicates : List (String × List String))
    (root_directory : String) (destination_folder : Option String) (fs0 : FS) :
    Nat × Nat × String × List String :=
  let destRoot := destinationRoot root_directory destination_folder
  let st := runMoveDuplicates env duplicates root_directory destRoot fs0
  (duplicates.length, st.num_duplicates_moved, destRoot, st.errors)

/-- All non-original paths of the given duplicate groups in processing order:
for each group, everything after the head of the sorted member list. -/
def nonOriginals (duplicates : List (String × List String)) : List String :=
  (duplicates.map fun g => (sortedStrs g.2).drop 1).flatten

/-- Model of the single-file move endpoint (src/app.py `move_file`,
lines 180-244): after existence checks, move the file to the
collision-resolved destination and return it; errors are reported, not
raised. -/
def move_file (fs : FS) (file_path destination_folder root_directory : String) :
    Except String (FS × String) :=
  if fsExists fs file_path = false then Except.error "File does not exist"
  else
    let dest := resolveCollision fs (destFor destination_folder root_directory file_path)
    Except.ok ((dest, fsGet fs file_path) :: fsRemove fs file_path, dest)

/-- Model of the undo endpoint (src/app.py `undo_move`, lines 246-286): after
checking that the destination file still exists, recreate missing parent
directories of the original location and `shutil.move` the file back to the
literal `original_path`. There is no collision check: `shutil.move` onto an
existing regular file replaces it. -/
def undo_move (fs : FS) (destination_path original_path : String) :
    Except String FS :=
  if fsExists fs destination_path = false then
    Except.error "Destination file does not exist"
  else
    Except.ok ((original_path, fsGet fs destination_path) ::
      fsRemove (fsRemove fs original_path) destination_path)

theorem resolveCollision_of_free (fs : FS) (target : String)
    (h : fsExists fs target = false) : resolveCollision fs target = target := by
  rw [resolveCollision, h]
  simp

theorem resolveCollision_min_suffix (fs : FS) (target : String)
    (h : fsExists fs target = true) :
    ∃ k, 1 ≤ k ∧
      resolveCollision fs target =
        mkCand (splitParentName target).1 (nameStem (splitParentName target).2)
          (nameSuffix (splitParentName target).2) k ∧
      fsExists fs (mkCand (splitParentName target).1 (nameStem (splitParentName target).2)
        (nameSuffix (splitParentName target).2) k) = false ∧
      ∀ m, 1 ≤ m → m < k →
        fsExists fs (mkCand (splitParentName target).1 (nameStem (splitParentName target).2)
          (nameSuffix (splitParentName target).2) m) = true := by
  obtain ⟨k0, hk1, hk2, hfree⟩ :=
    exists_free_cand fs (splitParentName target).1 (nameStem (splitParentName target).2)
      (nameSuffix (splitParentName target).2) 1
  obtain ⟨k, h1, _, heq, hf, hmin⟩ :=
    collisionLoop_min_free fs (splitParentName target).1 (nameStem (splitParentName target).2)
      (nameSuffix (splitParentName target).2) (fs.length + 1) 1 ⟨k0, hk1, hk2, hfree⟩
  refine ⟨k, h1, ?_, hf, hmin⟩
  rw [resolveCollision, if_pos h]
  exact heq

theorem resolveCollision_not_exists (fs : FS) (target : String) :
    fsExists fs (resolveCollision fs target) = false := by
  by_cases h : fsExists fs target = true
  · obtain ⟨k, _, heq, hf, _⟩ := resolveCollision_min_suffix fs target h
    rw [heq]
    exact hf
  · have h' : fsExists fs target = false := by
      revert h; cases fsExists fs target <;> simp
    rw [resolveCollision_of_free fs target h']
    exact h'

/-- C1: whenever a forward move's computed target already exists, the final
destination is `{stem}_{k}{suffix}` in the same directory for the least free
counter `k ≥ 1`, every smaller counter being taken; the destination chosen by
a forward move therefore never coincides with an existing file, both in
`move_duplicates` (whose successful per-file step moves to the
collision-resolved destination) and in the single-file `move_file`. -/
theorem forward_move_never_overwrites (fs : FS) (target : String) :
    fsExists fs (resolveCollision fs target) = false ∧
    (fsExists fs target = false → resolveCollision fs target = target) ∧
    (fsExists fs target = true →
      ∃ k, 1 ≤ k ∧
        resolveCollision fs target =
          mkCand (splitParentName target).1 (nameStem (splitParentName target).2)
            (nameSuffix (splitParentName target).2) k ∧
        ∀ m, 1 ≤ m → m < k →
          fsExists fs (mkCand (splitParentName target).1
            (nameStem (splitParentName target).2)
            (nameSuffix (splitParentName target).2) m) = true) ∧
    (∀ (fsx : FS) (fp df rd : String) (res : FS × String),
      move_file fsx fp df rd = Except.ok res → fsExists fsx res.2 = false) ∧
    (∀ (env : MoveEnv) (rootDir destRoot : String) (st : MoveState) (p : String),
      fsExists st.fs p = true → env.fail p = none →
      moveOneDuplicate env rootDir destRoot st p =
        { fs := (resolveCollision st.fs (destFor destRoot rootDir p), fsGet st.fs p) ::
            fsRemove st.fs p,
          num_duplicates_moved := st.num_duplicates_moved + 1,
          errors := st.errors,
          log := st.log ++ [(p, resolveCollision st.fs (destFor destRoot rootDir p))] }) := by
  refine ⟨resolveCollision_not_exists fs target, resolveCollision_of_free fs target, ?_, ?_, ?_⟩
  · intro h
    obtain ⟨k, h1, heq, _, hmin⟩ := resolveCollision_min_suffix fs target h
    exact ⟨k, h1, heq, hmin⟩
  · intro fsx fp df rd res hok
    rw [move_file] at hok
    by_cases hex : fsExists fsx fp = false
    · rw [if_pos hex] at hok
      exact Except.noConfusion hok
    · rw [if_neg hex] at hok
      have hres := Except.ok.inj hok
      have : res.2 = resolveCollision fsx (destFor df rd fp) := by
        rw [← hres]
      rw [this]
      exact resolveCollision_not_exists fsx _
  · intro env rootDir destRoot st p hex hfail
    rw [moveOneDuplicate, if_neg (by rw [hex]; exact Bool.noConfusion), hfail]

/-- Witness for C1: on a filesystem already holding `a.jpg` and `a_1.jpg`,
moving another `a.jpg` lands on the fresh name `a_2.jpg`. -/
theorem forward_move_never_overwrites_witness :
    fsExists [("/d/a.jpg", 1), ("/d/a_1.jpg", 2)]
      (resolveCollision [("/d/a.jpg", 1), ("/d/a_1.jpg", 2)] "/d/a.jpg") = false ∧
    resolveCollision [("/d/a.jpg", 1), ("/d/a_1.jpg", 2)] "/d/a.jpg" = "/d/a_2.jpg" :=
  ⟨(forward_move_never_overwrites [("/d/a.jpg", 1), ("/d/a_1.jpg", 2)] "/d/a.jpg").1,
    by decide⟩

/-- C10: `undo_move` sends the file to the literal `original_path` with no
collision check: on success the result filesystem holds the moved content at
exactly `original_path`, the destination entry is gone, no other path was
created (in particular no suffixed variant), and any file previously at the
original path has been replaced. -/
theorem undo_move_replaces_at_literal_original (fs : FS) (dest orig : String)
    (hd : fsExists fs dest = true) (hnd : (fs.map Prod.fst).Nodup) (hne : orig ≠ dest) :
    undo_move fs dest orig =
      Except.ok ((orig, fsGet fs dest) :: fsRemove (fsRemove fs orig) dest) ∧
    fsGet ((orig, fsGet fs dest) :: fsRemove (fsRemove fs orig) dest) orig = fsGet fs dest ∧
    fsExists ((orig, fsGet fs dest) :: fsRemove (fsRemove fs orig) dest) orig = true ∧
    fsExists ((orig, fsGet fs dest) :: fsRemove (fsRemove fs orig) dest) dest = false ∧
    ∀ q, fsExists ((orig, fsGet fs dest) :: fsRemove (fsRemove fs orig) dest) q = true →
      q = orig ∨ (q ≠ dest ∧ fsExists fs q = true) := by
  have hinner : ((fsRemove fs orig).map Prod.fst).Nodup :=
    List.Nodup.sublist (fsRemove_keys_sublist fs orig) hnd
  refine ⟨?_, ?_, ?_, ?_, ?_⟩
  · rw [undo_move, if_neg (by rw [hd]; exact Bool.noConfusion)]
  · simp [fsGet, assocLookup]
  · simp [fsExists]
  · simp only [fsExists, List.any_cons, Bool.or_eq_false_iff]
    constructor
    · simpa using hne
    · exact fsRemove_exists_self (fsRemove fs orig) dest hinner
  · intro q hq
    by_cases hqo : q = orig
    · exact Or.inl hqo
    · right
      simp only [fsExists, List.any_cons, Bool.or_eq_true] at hq
      rcases hq with hq | hq
      · exact absurd (by simpa using hq) (Ne.symm hqo)
      · constructor
        · intro hqd
          rw [hqd] at hq
          rw [show (fsRemove (fsRemove fs orig) dest).any
              (fun e => decide (e.1 = dest)) = fsExists (fsRemove (fsRemove fs orig) dest) dest
              from rfl] at hq
          rw [fsRemove_exists_self (fsRemove fs orig) dest hinner] at hq
          exact Bool.noConfusion hq
        · by_contra hfs
          have hfs' : fsExists fs q = false := by
            revert hfs; cases fsExists fs q <;> simp
          have h1 := fsRemove_exists_false fs orig q hfs'
          have h2 := fsRemove_exists_false (fsRemove fs orig) dest q h1
          rw [show (fsRemove (fsRemove fs orig) dest).any
              (fun e => decide (e.1 = q)) = fsExists (fsRemove (fsRemove fs orig) dest) q
              from rfl] at hq
          rw [h2] at hq
          exact Bool.noConfusion hq

/-- Witness for C10: undoing onto an already occupied original path replaces
the occupant with the moved content. -/
theorem undo_move_replaces_at_literal_original_witness :
    (undo_move [("/dup/x.jpg", 5), ("/orig/x.jpg", 7)] "/dup/x.jpg" "/orig/x.jpg" =
      Except.ok ((("/orig/x.jpg", 5)) ::
        fsRemove (fsRemove [("/dup/x.jpg", 5), ("/orig/x.jpg", 7)] "/orig/x.jpg")
          "/dup/x.jpg")) ∧
    fsGet (("/orig/x.jpg", 5) ::
      fsRemove (fsRemove [("/dup/x.jpg", 5), ("/orig/x.jpg", 7)] "/orig/x.jpg")
        "/dup/x.jpg") "/orig/x.jpg" = 5 := by
  have h := undo_move_replaces_at_literal_original
    [("/dup/x.jpg", 5), ("/orig/x.jpg", 7)] "/dup/x.jpg" "/orig/x.jpg"
    (by decide) (by decide) (by decide)
  exact ⟨h.1, h.2.1⟩

theorem moveOneDuplicate_accounting (env : MoveEnv) (rootDir destRoot : String)
    (st : MoveState) (p : String) :
    (moveOneDuplicate env rootDir destRoot st p).num_duplicates_moved +
      (moveOneDuplicate env rootDir destRoot st p).errors.length =
    st.num_duplicates_moved + st.errors.length + 1 := by
  rw [moveOneDuplicate]
  by_cases h : fsExists st.fs p = false
  · rw [if_pos h]
    simp
    omega
  · rw [if_neg h]
    cases hf : env.fail p
    · simp
      omega
    · simp
      omega

theorem foldl_moveOne_accounting (env : MoveEnv) (rootDir destRoot : String) :
    ∀ (l : List String) (st : MoveState),
      ((l.foldl (moveOneDuplicate env rootDir destRoot) st).num_duplicates_moved +
        (l.foldl (moveOneDuplicate env rootDir destRoot) st).errors.length) =
      st.num_duplicates_moved + st.errors.length + l.length := by
  intro l
  induction l with
  | nil => intro st; simp
  | cons p rest ih =>
    intro st
    rw [List.foldl_cons, ih, moveOneDuplicate_accounting]
    simp
    omega

theorem runMoveDuplicates_eq_foldl (env : MoveEnv) (dups : List (String × List String))
    (rootDir destRoot : String) (fs0 : FS) :
    runMoveDuplicates env dups rootDir destRoot fs0 =
      (nonOriginals dups).foldl (moveOneDuplicate env rootDir destRoot)
        { fs := fs0, num_duplicates_moved := 0, errors := [], log := [] } := by
  rw [runMoveDuplicates, nonOriginals]
  generalize ({ fs := fs0, num_duplicates_moved := 0, errors := [], log := [] } : MoveState) = st0
  induction dups generalizing st0 with
  | nil => rfl
  | cons g rest ih =>
    rw [List.foldl_cons, List.map_cons, List.flatten_cons, List.foldl_append]
    rw [show processGroup env rootDir destRoot st0 g.2 =
      ((sortedStrs g.2).drop 1).foldl (moveOneDuplicate env rootDir destRoot) st0 from rfl]
    exact ih _

/-- C9: every non-original path across all duplicate groups contributes
exactly one of a successful move or one error entry, so the moved count plus
the error count equals the total number of non-original paths. -/
theorem move_duplicates_accounts_all_duplicates (env : MoveEnv)
    (dups : List (String × List String)) (root : String) (destOpt : Option String) (fs0 : FS) :
    (move_duplicates env dups root destOpt fs0).2.1 +
      (move_duplicates env dups root destOpt fs0).2.2.2.length =
    (nonOriginals dups).length := by
  have h1 : (move_duplicates env dups root destOpt fs0).2.1 =
      (runMoveDuplicates env dups root (destinationRoot root destOpt) fs0).num_duplicates_moved :=
    rfl
  have h2 : (move_duplicates env dups root destOpt fs0).2.2.2 =
      (runMoveDuplicates env dups root (destinationRoot root destOpt) fs0).errors := rfl
  rw [h1, h2, runMoveDuplicates_eq_foldl, foldl_moveOne_accounting]
  simp

/-- C5: a failing file (missing source, or any exception the try block
catches) contributes exactly one entry to the error list and leaves the
state otherwise untouched, so all remaining moves proceed exactly as they
would; and `move_duplicates` returns the four-tuple of total group count,
moved count, resolved destination root, and the ordered error list. -/
theorem move_duplicates_failure_isolated (env : MoveEnv) (rootDir destRoot : String)
    (l1 l2 : List String) (p : String) (st0 : MoveState) :
    (fsExists ((l1.foldl (moveOneDuplicate env rootDir destRoot) st0).fs) p = false →
      (l1 ++ p :: l2).foldl (moveOneDuplicate env rootDir destRoot) st0 =
        l2.foldl (moveOneDuplicate env rootDir destRoot)
          { l1.foldl (moveOneDuplicate env rootDir destRoot) st0 with
            errors := (l1.foldl (moveOneDuplicate env rootDir destRoot) st0).errors ++
              ["File not found: " ++ p] }) ∧
    (∀ e, fsExists ((l1.foldl (moveOneDuplicate env rootDir destRoot) st0).fs) p = true →
      env.fail p = some e →
      (l1 ++ p :: l2).foldl (moveOneDuplicate env rootDir destRoot) st0 =
        l2.foldl (moveOneDuplicate env rootDir destRoot)
          { l1.foldl (moveOneDuplicate env rootDir destRoot) st0 with
            errors := (l1.foldl (moveOneDuplicate env rootDir destRoot) st0).errors ++
              [errText p e] }) ∧
    (∀ (dups : List (String × List String)) (root : String) (destOpt : Option String)
      (fs0 : FS),
      move_duplicates env dups root destOpt fs0 =
        (dups.length,
         (runMoveDuplicates env dups root (destinationRoot root destOpt)
            fs0).num_duplicates_moved,
         destinationRoot root destOpt,
         (runMoveDuplicates env dups root (destinationRoot root destOpt) fs0).errors)) := by
  refine ⟨?_, ?_, ?_⟩
  · intro hmiss
    rw [List.foldl_append, List.foldl_cons]
    rw [show moveOneDuplicate env rootDir destRoot
        (l1.foldl (moveOneDuplicate env rootDir destRoot) st0) p =
      { l1.foldl (moveOneDuplicate env rootDir destRoot) st0 with
        errors := (l1.foldl (moveOneDuplicate env rootDir destRoot) st0).errors ++
          ["File not found: " ++ p] } from by rw [moveOneDuplicate, if_pos hmiss]]
  · intro e hex hfail
    rw [List.foldl_append, List.foldl_cons]
    rw [show moveOneDuplicate env rootDir destRoot
        (l1.foldl (moveOneDuplicate env rootDir destRoot) st0) p =
      { l1.foldl (moveOneDuplicate env rootDir destRoot) st0 with
        errors := (l1.foldl (moveOneDuplicate env rootDir destRoot) st0).errors ++
          [errText p e] } from by
      rw [moveOneDuplicate, if_neg (by rw [hex]; exact Bool.noConfusion), hfail]]
  · intro dups root destOpt fs0
    rfl

/-- Witness for C5: a vanished file in the middle of the processing list adds
one error entry and the following file is still moved. -/
theorem move_duplicates_failure_isolated_witness :
    fsExists ((([] : List String).foldl
        (moveOneDuplicate { fail := fun _ => none } "/r" "/dest")
        { fs := [("/r/b.jpg", 3)], num_duplicates_moved := 0, errors := [], log := [] }).fs)
      "/r/gone.jpg" = false ∧
    (([] ++ "/r/gone.jpg" :: ["/r/b.jpg"]).foldl
        (moveOneDuplicate { fail := fun _ => none } "/r" "/dest")
        { fs := [("/r/b.jpg", 3)], num_duplicates_moved := 0, errors := [], log := [] } =
      ["/r/b.jpg"].foldl (moveOneDuplicate { fail := fun _ => none } "/r" "/dest")
        { fs := [("/r/b.jpg", 3)], num_duplicates_moved := 0,
          errors := [] ++ ["File not found: " ++ "/r/gone.jpg"], log := [] }) := by
  refine ⟨by decide, ?_⟩
  have h := (move_duplicates_failure_isolated { fail := fun _ => none } "/r" "/dest"
    [] ["/r/b.jpg"] "/r/gone.jpg"
    { fs := [("/r/b.jpg", 3)], num_duplicates_moved := 0, errors := [], log := [] }).1
    (by decide)
  exact h

theorem foldl_moveOne_all_success (env : MoveEnv) (rootDir destRoot : String) :
    ∀ (l : List String) (st : MoveState),
      (∀ p ∈ l, env.fail p = none) →
      (∀ p ∈ l, fsExists st.fs p = true) →
      l.Nodup →
      (∀ p ∈ l, fsExists st.fs (destFor destRoot rootDir p) = false) →
      (l.map (destFor destRoot rootDir)).Nodup →
      ((l.foldl (moveOneDuplicate env rootDir destRoot) st).num_duplicates_moved =
          st.num_duplicates_moved + l.length ∧
        (l.foldl (moveOneDuplicate env rootDir destRoot) st).errors = st.errors ∧
        (l.foldl (moveOneDuplicate env rootDir destRoot) st).log =
          st.log ++ l.map (fun p => (p, destFor destRoot rootDir p))) := by
  intro l
  induction l with
  | nil =>
    intro st _ _ _ _ _
    simp
  | cons p rest ih =>
    intro st hfail hex hnd hfresh hndt
    have hstep : moveOneDuplicate env rootDir destRoot st p =
        { fs := (destFor destRoot rootDir p, fsGet st.fs p) :: fsRemove st.fs p,
          num_duplicates_moved := st.num_duplicates_moved + 1,
          errors := st.errors,
          log := st.log ++ [(p, destFor destRoot rootDir p)] } := by
      rw [moveOneDuplicate,
        if_neg (by rw [hex p (List.mem_cons_self p rest)]; exact Bool.noConfusion),
        hfail p (List.mem_cons_self p rest),
        resolveCollision_of_free _ _ (hfresh p (List.mem_cons_self p rest))]
    rw [List.foldl_cons, hstep]
    have hndrest := (List.nodup_cons.mp hnd)
    have hndtrest : destFor destRoot rootDir p ∉ List.map (destFor destRoot rootDir) rest ∧
        (List.map (destFor destRoot rootDir) rest).Nodup := by
      rw [List.map_cons, List.nodup_cons] at hndt
      exact hndt
    obtain ⟨ha, hb, hc⟩ := ih
      { fs := (destFor destRoot rootDir p, fsGet st.fs p) :: fsRemove st.fs p,
        num_duplicates_moved := st.num_duplicates_moved + 1,
        errors := st.errors,
        log := st.log ++ [(p, destFor destRoot rootDir p)] }
      (fun q hq => hfail q (List.mem_cons_of_mem p hq))
      (fun q hq => by
        simp only [fsExists, List.any_cons, Bool.or_eq_true]
        right
        rw [show (fsRemove st.fs p).any (fun e => decide (e.1 = q)) =
          fsExists (fsRemove st.fs p) q from rfl]
        rw [fsRemove_exists_ne st.fs p q (by rintro rfl; exact hndrest.1 hq)]
        exact hex q (List.mem_cons_of_mem p hq))
      hndrest.2
      (fun q hq => by
        simp only [fsExists, List.any_cons, Bool.or_eq_false_iff]
        constructor
        · have : destFor destRoot rootDir p ≠ destFor destRoot rootDir q := by
            intro hcontra
            exact hndtrest.1 (List.mem_map.mpr ⟨q, hq, hcontra.symm⟩)
          simpa using this
        · rw [show (fsRemove st.fs p).any (fun e => decide (e.1 = destFor destRoot rootDir q)) =
            fsExists (fsRemove st.fs p) (destFor destRoot rootDir q) from rfl]
          exact fsRemove_exists_false st.fs p _ (hfresh q (List.mem_cons_of_mem p hq)))
      hndtrest.2
    refine ⟨?_, hb, ?_⟩
    · rw [ha]
      simp
      omega
    · rw [hc]
      simp

/-- C2: when every non-original source exists, no per-file exception occurs
and the computed targets are fresh and pairwise distinct, `move_duplicates`
performs exactly one move per non-original member of each group — every path
except the lexicographically first of the sorted group — and each move's
destination is the destination root joined with the source's path relative to
the scan root, falling back to the bare filename for sources outside the scan
root. -/
theorem move_duplicates_moves_exactly_non_originals (env : MoveEnv)
    (dups : List (String × List String)) (rootDir : String) (destOpt : Option String)
    (fs0 : FS)
    (hfail : ∀ p ∈ nonOriginals dups, env.fail p = none)
    (hex : ∀ p ∈ nonOriginals dups, fsExists fs0 p = true)
    (hndsrc : (nonOriginals dups).Nodup)
    (hfresh : ∀ p ∈ nonOriginals dups,
      fsExists fs0 (destFor (destinationRoot rootDir destOpt) rootDir p) = false)
    (hndtgt :
      ((nonOriginals dups).map (destFor (destinationRoot rootDir destOpt) rootDir)).Nodup) :
    (runMoveDuplicates env dups rootDir (destinationRoot rootDir destOpt) fs0).log =
      (nonOriginals dups).map
        (fun p => (p, destFor (destinationRoot rootDir destOpt) rootDir p)) ∧
    (move_duplicates env dups rootDir destOpt fs0).2.1 = (nonOriginals dups).length ∧
    (move_duplicates env dups rootDir destOpt fs0).2.2.2 = [] ∧
    (∀ g ∈ dups, ∀ m rest, sortedStrs g.2 = m :: rest →
      m ∈ g.2 ∧ ∀ r ∈ g.2, strLt r m = false) ∧
    (∀ p, isPref (splitPath rootDir) (splitPath p) = true →
      destFor (destinationRoot rootDir destOpt) rootDir p =
        joinPath (destinationRoot rootDir destOpt)
          ((splitPath p).drop (splitPath rootDir).length)) ∧
    (∀ p, isPref (splitPath rootDir) (splitPath p) = false →
      destFor (destinationRoot rootDir destOpt) rootDir p =
        (destinationRoot rootDir destOpt) ++ "/" ++ pathName p) := by
  have hrun := runMoveDuplicates_eq_foldl env dups rootDir (destinationRoot rootDir destOpt) fs0
  obtain ⟨ha, hb, hc⟩ := foldl_moveOne_all_success env rootDir (destinationRoot rootDir destOpt)
    (nonOriginals dups)
    { fs := fs0, num_duplicates_moved := 0, errors := [], log := [] }
    hfail hex hndsrc hfresh hndtgt
  refine ⟨?_, ?_, ?_, ?_, ?_, ?_⟩
  · rw [hrun, hc]
    simp
  · have h1 : (move_duplicates env dups rootDir destOpt fs0).2.1 =
        (runMoveDuplicates env dups rootDir (destinationRoot rootDir destOpt)
          fs0).num_duplicates_moved := rfl
    rw [h1, hrun, ha]
    simp
  · have h2 : (move_duplicates env dups rootDir destOpt fs0).2.2.2 =
        (runMoveDuplicates env dups rootDir (destinationRoot rootDir destOpt) fs0).errors := rfl
    rw [h2, hrun, hb]
  · intro g _ m rest hsort
    exact sortedStrs_head_min g.2 m rest hsort
  · intro p hp
    rw [destFor, if_pos hp]
  · intro p hp
    rw [destFor, if_neg (by rw [hp]; exact Bool.noConfusion)]

/-- Demo environment where no OS exception is raised. -/
def demoEnv : MoveEnv := { fail := fun _ => none }

/-- Demo duplicate group with two same-digest files, unsorted member order. -/
def demoDups : List (String × List String) := [("h", ["/r/b.jpg", "/r/a.jpg"])]

/-- Demo filesystem holding the two duplicate files. -/
def demoFS0 : FS := [("/r/a.jpg", 1), ("/r/b.jpg", 2)]

/-- Witness for C2 at a concrete input: "/r/b.jpg" (the non-original) is the
single logged move, into "/duplicates_review/b.jpg". -/
theorem move_duplicates_moves_exactly_non_originals_witness :
    (runMoveDuplicates demoEnv demoDups "/r" (destinationRoot "/r" none) demoFS0).log =
      (nonOriginals demoDups).map
        (fun p => (p, destFor (destinationRoot "/r" none) "/r" p)) ∧
    (move_duplicates demoEnv demoDups "/r" none demoFS0).2.1 =
      (nonOriginals demoDups).length := by
  have h := move_duplicates_moves_exactly_non_originals demoEnv demoDups "/r" none demoFS0
    (by decide) (by decide) (by decide) (by decide) (by decide)
  exact ⟨h.1, h.2.1⟩

/-- Default `distance_threshold` of `find_near_duplicate_groups`
(src/scan_media.py line 103). -/
def DEFAULT_DISTANCE_THRESHOLD : Nat := 20

/-- Hamming distance between two perceptual hashes (src/scan_media.py
`hamming_distance`): the hex strings denote bit vectors; `imagehash`
subtraction counts differing bits and raises (yielding `None`) when the
shapes do not match. -/
def hamming_distance (phash1 phash2 : List Bool) : Option Nat :=
  if phash1.length = phash2.length then
    some ((phash1.zip phash2).countP fun bc => decide (bc.1 ≠ bc.2))
  else none

/-- The image records eligible for clustering (src/scan_media.py line 121):
images with a non-empty perceptual hash. The model covers the
`PERCEPTUAL_HASH_AVAILABLE = True` path; without the libraries the source
returns early. -/
def image_files_of (files_data : List FileInfo) : List FileInfo :=
  files_data.filter fun f => decide (f.file_type = FileType.image) && !f.phash.isEmpty

/-- Pair comparison of the loop body (src/scan_media.py lines 144-156): both
hashes non-empty and distance defined and at most the threshold. -/
def edgeAt (imgs : List FileInfo) (T : Nat) (i j : Nat) : Bool :=
  !(imgs.getD i default).phash.isEmpty && !(imgs.getD j default).phash.isEmpty &&
    (match hamming_distance (imgs.getD i default).phash (imgs.getD j default).phash with
     | some d => decide (d ≤ T)
     | none => false)

/-- All index pairs `(i, j)` with `i < j < n`, in the double-loop order of
src/scan_media.py lines 144-149. -/
def allPairs (n : Nat) : List (Nat × Nat) :=
  ((List.range n).map fun i => (List.range' (i + 1) (n - (i + 1))).map fun j => (i, j)).flatten

/-- Union-find over `n` fresh singleton nodes (`parent = list(range(n))`,
src/scan_media.py line 130). The source's hand-rolled union-find with
path-compressing `find` and root-relinking `union` is embedded as the
verified `Batteries.UnionFind`, which implements the same algorithm; the
resulting partition is identical. -/
def ufStart : Nat → Batteries.UnionFind
  | 0 => Batteries.UnionFind.empty
  | n + 1 => (ufStart n).push

/-- Union the members of each similar pair in order (src/scan_media.py
lines 144-156). -/
def unionPairsFold (edge : Nat → Nat → Bool) (pairs : List (Nat × Nat))
    (uf : Batteries.UnionFind) : Batteries.UnionFind :=
  pairs.foldl (fun uf pr => if edge pr.1 pr.2 then uf.union! pr.1 pr.2 else uf) uf

/-- The union-find after processing all pairs of the clustering input. -/
def near_unionfind (imgs : List FileInfo) (T : Nat) : Batteries.UnionFind :=
  unionPairsFold (edgeAt imgs T) (allPairs imgs.length) (ufStart imgs.length)

/-- Indices grouped by their root, keys in first-encounter order
(src/scan_media.py lines 159-162, another `defaultdict(list)` fold). -/
def groupsByRoot (uf : Batteries.UnionFind) (n : Nat) : List (Nat × List Nat) :=
  groupFold (fun i => uf.rootD i) (fun i => i) (List.range n)

/-- Dictionary update: replace the value at the first occurrence of the key,
appending when absent. -/
def assocSet {κ β : Type} [DecidableEq κ] (m : List (κ × β)) (k : κ) (v : β) :
    List (κ × β) :=
  match m with
  | [] => [(k, v)]
  | (k', v') :: rest => if k' = k then (k, v) :: rest else (k', v') :: assocSet rest k v

/-- Label assignment loop (src/scan_media.py lines 164-172): walk the groups
in order, give each group of more than one image the label
`nd_group_{group_num}` with `group_num` counting up from 1, leave singleton
groups at the initial "unique". -/
def assignLabels (imgs : List FileInfo) :
    List (Nat × List Nat) → List (String × String) → Nat → List (String × String)
  | [], m, _ => m
  | (_, indices) :: rest, m, group_num =>
    if 1 < indices.length then
      assignLabels imgs rest
        (indices.foldl
          (fun m idx => assocSet m ((imgs.getD idx default).file_path)
            ("nd_group_" ++ Nat.repr group_num)) m)
        (group_num + 1)
    else assignLabels imgs rest m group_num

/-- Model of `find_near_duplicate_groups` (src/scan_media.py lines 103-174):
the returned dictionary from image path to near-duplicate group label. -/
def find_near_duplicate_groups (files_data : List FileInfo) (distance_threshold : Nat) :
    List (String × String) :=
  if (image_files_of files_data).isEmpty then [] else
  assignLabels (image_files_of files_data)
    (groupsByRoot (near_unionfind (image_files_of files_data) distance_threshold)
      (image_files_of files_data).length)
    ((image_files_of files_data).map fun f => (f.file_path, "unique")) 1

theorem assocSet_lookup {κ β : Type} [DecidableEq κ] (m : List (κ × β)) (k p : κ) (v : β) :
    assocLookup (assocSet m k v) p = if k = p then some v else assocLookup m p := by
  induction m with
  | nil =>
    by_cases h : k = p
    · simp [assocSet, assocLookup, h]
    · simp [assocSet, assocLookup, h]
  | cons e rest ih =>
    obtain ⟨ke, ve⟩ := e
    by_cases hek : ke = k
    · subst hek
      by_cases h : ke = p
      · simp [assocSet, assocLookup, h]
      · simp [assocSet, assocLookup, h]
    · by_cases h : ke = p
      · subst h
        have : ¬(k = ke) := fun hh => hek hh.symm
        simp [assocSet, assocLookup, hek, this]
      · simp [assocSet, assocLookup, hek, h, ih]

theorem foldl_assocSet_lookup (path : Nat → String) (lbl : String) :
    ∀ (indices : List Nat) (m : List (String × String)) (p : String),
      assocLookup (indices.foldl (fun m idx => assocSet m (path idx) lbl) m) p =
        if ∃ idx ∈ indices, path idx = p then some lbl else assocLookup m p := by
  intro indices
  induction indices with
  | nil => intro m p; simp
  | cons idx rest ih =>
    intro m p
    rw [List.foldl_cons, ih]
    by_cases hrest : ∃ i ∈ rest, path i = p
    · have : ∃ i ∈ idx :: rest, path i = p := by
        obtain ⟨i, hi, hpi⟩ := hrest
        exact ⟨i, List.mem_cons_of_mem idx hi, hpi⟩
      rw [if_pos hrest, if_pos this]
    · rw [if_neg hrest, assocSet_lookup]
      by_cases hidx : path idx = p
      · have : ∃ i ∈ idx :: rest, path i = p := ⟨idx, List.mem_cons_self idx rest, hidx⟩
        rw [if_pos hidx, if_pos this]
      · have : ¬∃ i ∈ idx :: rest, path i = p := by
          rintro ⟨i, hi, hpi⟩
          rcases List.mem_cons.mp hi with rfl | hi'
          · exact hidx hpi
          · exact hrest ⟨i, hi', hpi⟩
        rw [if_neg hidx, if_neg this]

theorem assignLabels_lookup (imgs : List FileInfo) :
    ∀ (gs : List (Nat × List Nat)) (m : List (String × String)) (c : Nat) (p : String),
      gs.countP
          (fun g => g.2.any fun idx => decide ((imgs.getD idx default).file_path = p)) ≤ 1 →
      assocLookup (assignLabels imgs gs m c) p =
        match (gs.filter fun g => decide (1 < g.2.length)).findIdx?
            (fun g => g.2.any fun idx => decide ((imgs.getD idx default).file_path = p)) with
        | some t => some ("nd_group_" ++ Nat.repr (c + t))
        | none => assocLookup m p := by
  intro gs
  induction gs with
  | nil => intro m c p _; simp [assignLabels]
  | cons g rest ih =>
    intro m c p hcount
    obtain ⟨r, indices⟩ := g
    rw [List.countP_cons] at hcount
    by_cases hbig : 1 < indices.length
    · rw [show assignLabels imgs ((r, indices) :: rest) m c =
          assignLabels imgs rest
            (indices.foldl
              (fun m idx => assocSet m ((imgs.getD idx default).file_path)
                ("nd_group_" ++ Nat.repr c)) m) (c + 1) from by
        rw [assignLabels, if_pos hbig]]
      by_cases hmem : indices.any (fun idx => decide ((imgs.getD idx default).file_path = p))
      · have hrest0 : rest.countP
            (fun g => g.2.any fun idx => decide ((imgs.getD idx default).file_path = p)) = 0 := by
          simp only [hmem, if_pos] at hcount
          omega
        have hnone : ∀ g ∈ rest,
            (g.2.any fun idx => decide ((imgs.getD idx default).file_path = p)) = false := by
          intro g hg
          by_contra hgc
          have : 0 < rest.countP
              (fun g => g.2.any fun idx => decide ((imgs.getD idx default).file_path = p)) := by
            rw [List.countP_pos]
            exact ⟨g, hg, by revert hgc; cases (g.2.any fun idx =>
              decide ((imgs.getD idx default).file_path = p)) <;> simp⟩
          omega
        rw [ih _ (c + 1) p (by omega)]
        have hfnone : (rest.filter fun g => decide (1 < g.2.length)).findIdx?
            (fun g => g.2.any fun idx => decide ((imgs.getD idx default).file_path = p)) =
            none := by
          rw [List.findIdx?_eq_none_iff]
          intro g hg
          exact hnone g (List.mem_filter.mp hg).1
        rw [hfnone]
        rw [foldl_assocSet_lookup]
        have hex : ∃ idx ∈ indices, (imgs.getD idx default).file_path = p := by
          rw [List.any_eq_true] at hmem
          obtain ⟨idx, hidx, hpi⟩ := hmem
          exact ⟨idx, hidx, by simpa using hpi⟩
        rw [if_pos hex]
        have hfilter : ((r, indices) :: rest).filter (fun g => decide (1 < g.2.length)) =
            (r, indices) :: rest.filter (fun g => decide (1 < g.2.length)) := by
          rw [List.filter_cons, if_pos (by simpa using hbig)]
        rw [hfilter, List.findIdx?_cons, if_pos hmem]
        simp
      · have hex' : ¬∃ idx ∈ indices, (imgs.getD idx default).file_path = p := by
          rintro ⟨idx, hidx, hpi⟩
          exact hmem (List.any_eq_true.mpr ⟨idx, hidx, by simpa using hpi⟩)
        rw [ih _ (c + 1) p (by omega)]
        have hfilter : ((r, indices) :: rest).filter (fun g => decide (1 < g.2.length)) =
            (r, indices) :: rest.filter (fun g => decide (1 < g.2.length)) := by
          rw [List.filter_cons, if_pos (by simpa using hbig)]
        rw [hfilter, List.findIdx?_cons,
          if_neg (by revert hmem; cases (indices.any fun idx =>
            decide ((imgs.getD idx default).file_path = p)) <;> simp)]
        rw [List.findIdx?_start_succ]
        cases hf : (rest.filter fun g => decide (1 < g.2.length)).findIdx?
            (fun g => g.2.any fun idx => decide ((imgs.getD idx default).file_path = p)) with
        | none =>
          simp only [Option.map_none']
          rw [foldl_assocSet_lookup, if_neg hex']
        | some t =>
          simp only [Option.map_some']
          have harith : c + 1 + t = c + (t + (0 + 1)) := by omega
          rw [harith]
    · rw [show assignLabels imgs ((r, indices) :: rest) m c = assignLabels imgs rest m c from by
        rw [assignLabels, if_neg hbig]]
      rw [ih _ c p (by omega)]
      have hfilter : ((r, indices) :: rest).filter (fun g => decide (1 < g.2.length)) =
          rest.filter (fun g => decide (1 < g.2.length)) := by
        rw [List.filter_cons, if_neg (by simpa using hbig)]
      rw [hfilter]

/-- Environment of the directory walk: per-file results of `stat` (`none`
models an `OSError` caught by the loop), of `compute_file_hash` (`none`
models a read failure) and of `compute_perceptual_hash` (`none` models a
decode failure or missing library). -/
structure ScanEnv where
  size : String → Option Nat
  hash : String → Option String
  phash : String → Option (List Bool)

/-- Records appended for one walked file (src/scan_media.py lines 247-273):
nothing for non-media files, failed stats or failed hashes; otherwise one
record, whose `phash` is empty unless the file is an image whose perceptual
hash succeeded. -/
def scanEmit (env : ScanEnv) (file_path : String) : List FileInfo :=
  let file_type := get_file_type file_path
  if file_type = FileType.image ∨ file_type = FileType.video then
    match env.size file_path with
    | none => []
    | some sz =>
      match env.hash file_path with
      | none => []
      | some h =>
        let ph := if file_type = FileType.image then env.phash file_path else none
        [{ file_path := file_path, file_size_bytes := sz, file_type := file_type,
           hash := h, phash := ph.getD [] }]
  else []

/-- Model of `scan_directory` (src/scan_media.py lines 221-275) on the list of
file paths produced by `os.walk`: one record per processable media file, in
walk order. -/
def scan_directory (env : ScanEnv) (walk : List String) : List FileInfo :=
  walk.foldl (fun acc q => acc ++ scanEmit env q) []

theorem scan_directory_eq_flatten (env : ScanEnv) (walk : List String) :
    scan_directory env walk = (walk.map (scanEmit env)).flatten := by
  rw [scan_directory]
  suffices h : ∀ acc, walk.foldl (fun acc q => acc ++ scanEmit env q) acc =
      acc ++ (walk.map (scanEmit env)).flatten by
    simpa using h []
  induction walk with
  | nil => intro acc; simp
  | cons q rest ih =>
    intro acc
    rw [List.foldl_cons, ih, List.map_cons, List.flatten_cons, List.append_assoc]

theorem scanEmit_path (env : ScanEnv) (q : String) :
    ∀ f ∈ scanEmit env q, f.file_path = q := by
  intro f hf
  rw [scanEmit] at hf
  by_cases ht : get_file_type q = FileType.image ∨ get_file_type q = FileType.video
  · rw [if_pos ht] at hf
    cases hsz : env.size q with
    | none => rw [hsz] at hf; simp at hf
    | some sz =>
      rw [hsz] at hf
      cases hh : env.hash q with
      | none => rw [hh] at hf; simp at hf
      | some h =>
        rw [hh] at hf
        simp only [List.mem_singleton] at hf
        rw [hf]
  · rw [if_neg ht] at hf
    simp at hf

theorem scan_directory_mem_path (env : ScanEnv) (walk : List String) (f : FileInfo)
    (hf : f ∈ scan_directory env walk) : ∃ q ∈ walk, f ∈ scanEmit env q ∧ f.file_path = q := by
  rw [scan_directory_eq_flatten] at hf
  rw [List.mem_flatten] at hf
  obtain ⟨l, hl, hfl⟩ := hf
  rw [List.mem_map] at hl
  obtain ⟨q, hq, rfl⟩ := hl
  exact ⟨q, hq, hfl, scanEmit_path env q f hfl⟩

theorem getD_mem_of_lt {α : Type} [Inhabited α] (l : List α) (i : Nat) (h : i < l.length) :
    l.getD i default ∈ l := by
  rw [List.getD_eq_getElem?_getD, List.getElem?_eq_getElem h]
  simpa using List.getElem_mem h

theorem assocLookup_unique_none (imgs : List FileInfo) (p : String)
    (h : ∀ f ∈ imgs, f.file_path ≠ p) :
    assocLookup (imgs.map fun f => (f.file_path, "unique")) p = none := by
  induction imgs with
  | nil => rfl
  | cons f rest ih =>
    simp only [List.map_cons, assocLookup]
    rw [if_neg (h f (List.mem_cons_self f rest))]
    exact ih fun g hg => h g (List.mem_cons_of_mem f hg)

theorem groupsByRoot_indices_lt (uf : Batteries.UnionFind) (n : Nat) (r : Nat)
    (idxs : List Nat) (hmem : (r, idxs) ∈ groupsByRoot uf n) :
    ∀ i ∈ idxs, i < n := by
  have hnd := groupFold_keys_nodup (fun i => uf.rootD i) (fun i : Nat => i) (List.range n)
  have hlk := (assoc_mem_iff_lookup _ r idxs hnd).mp hmem
  rw [show groupFold (fun i => uf.rootD i) (fun i : Nat => i) (List.range n) =
    groupsByRoot uf n from rfl, groupsByRoot, groupFold_lookup] at hlk
  by_cases hc : ∃ a ∈ List.range n, uf.rootD a = r
  · rw [if_pos hc] at hlk
    have := Option.some_injective _ hlk
    intro i hi
    rw [← this] at hi
    rw [List.mem_map] at hi
    obtain ⟨j, hj, rfl⟩ := hi
    exact List.mem_range.mp (List.mem_filter.mp hj).1
  · rw [if_neg hc] at hlk
    exact absurd hlk Option.noConfusion

/-- C7: an image file whose stat and content hash succeed but whose
perceptual fingerprint computation fails is still recorded (with an empty
fingerprint), is excluded from near-duplicate clustering (its path is not a
key of the map `find_near_duplicate_groups` returns), and still takes part
in exact-duplicate grouping: it sits in the digest bucket of its hash, and
whenever another record shares that digest, a surfaced duplicate group
contains it. -/
theorem scan_record_on_fingerprint_failure (env : ScanEnv) (walk : List String) (p : String)
    (T : Nat)
    (himg : get_file_type p = FileType.image)
    (hsz : ∃ n, env.size p = some n)
    (hhash : ∃ h, env.hash p = some h)
    (hph : env.phash p = none)
    (hmem : p ∈ walk) :
    (∃ f ∈ scan_directory env walk, f.file_path = p ∧ f.file_type = FileType.image ∧
      f.phash = [] ∧ env.hash p = some f.hash) ∧
    assocLookup (find_near_duplicate_groups (scan_directory env walk) T) p = none ∧
    (∀ h, env.hash p = some h →
      p ∈ ((scan_directory env walk).filter fun f => decide (f.hash = h)).map
        fun f => f.file_path) ∧
    (∀ h, env.hash p = some h →
      (∃ f ∈ scan_directory env walk, f.file_path ≠ p ∧ f.hash = h) →
      ∃ g ∈ find_duplicates (scan_directory env walk), g.1 = h ∧ p ∈ g.2) := by
  obtain ⟨sz, hsz⟩ := hsz
  obtain ⟨h0, hh0⟩ := hhash
  have hemit : scanEmit env p =
      [({ file_path := p, file_size_bytes := sz, file_type := FileType.image,
          hash := h0, phash := [] } : FileInfo)] := by
    rw [scanEmit]
    rw [if_pos (Or.inl himg), hsz, hh0, if_pos himg, hph]
    simp [himg]
  have hrec : ({ file_path := p, file_size_bytes := sz, file_type := FileType.image,
                 hash := h0, phash := [] } : FileInfo) ∈ scan_directory env walk := by
    rw [scan_directory_eq_flatten, List.mem_flatten]
    exact ⟨scanEmit env p, List.mem_map.mpr ⟨p, hmem, rfl⟩, by rw [hemit]; simp⟩
  have hallp : ∀ f ∈ scan_directory env walk, f.file_path = p →
      f = ({ file_path := p, file_size_bytes := sz, file_type := FileType.image,
             hash := h0, phash := [] } : FileInfo) := by
    intro f hf hfp
    obtain ⟨q, _, hfq, hfqp⟩ := scan_directory_mem_path env walk f hf
    rw [hfp] at hfqp
    rw [← hfqp, hemit] at hfq
    simpa using hfq
  refine ⟨⟨_, hrec, rfl, rfl, rfl, hh0⟩, ?_, ?_, ?_⟩
  · rw [find_near_duplicate_groups]
    have hnotimg : ∀ f ∈ image_files_of (scan_directory env walk), f.file_path ≠ p := by
      intro f hf hfp
      rw [image_files_of, List.mem_filter] at hf
      have := hallp f hf.1 hfp
      rw [this] at hf
      simp at hf
    by_cases hempty : (image_files_of (scan_directory env walk)).isEmpty
    · rw [if_pos hempty]
      rfl
    · rw [if_neg hempty]
      have hcount : (groupsByRoot
          (near_unionfind (image_files_of (scan_directory env walk)) T)
          (image_files_of (scan_directory env walk)).length).countP
          (fun g => g.2.any fun idx =>
            decide (((image_files_of (scan_directory env walk)).getD idx
              default).file_path = p)) ≤ 1 := by
        rw [Nat.le_one_iff_eq_zero_or_eq_one]
        left
        rw [List.countP_eq_zero]
        intro g hg
        rw [Bool.not_eq_true, List.any_eq_false]
        intro idx hidx
        have hlt := groupsByRoot_indices_lt _ _ g.1 g.2 (by
          rcases g with ⟨gr, gi⟩
          exact hg) idx hidx
        simp only [decide_eq_true_eq]
        exact hnotimg _ (getD_mem_of_lt _ _ hlt) ∘ id
      rw [assignLabels_lookup _ _ _ _ _ hcount]
      have hnof : ((groupsByRoot (near_unionfind (image_files_of (scan_directory env walk)) T)
          (image_files_of (scan_directory env walk)).length).filter
            fun g => decide (1 < g.2.length)).findIdx?
          (fun g => g.2.any fun idx =>
            decide (((image_files_of (scan_directory env walk)).getD idx
              default).file_path = p)) = none := by
        rw [List.findIdx?_eq_none_iff]
        intro g hg
        rw [List.any_eq_false]
        intro idx hidx
        have hlt := groupsByRoot_indices_lt _ _ g.1 g.2 (by
          rcases g with ⟨gr, gi⟩
          exact (List.mem_filter.mp hg).1) idx hidx
        simp only [decide_eq_true_eq]
        exact hnotimg _ (getD_mem_of_lt _ _ hlt) ∘ id
      rw [hnof]
      exact assocLookup_unique_none _ p hnotimg
  · intro h hh
    rw [hh0] at hh
    have hh' := Option.some_injective _ hh
    subst hh'
    rw [List.mem_map]
    refine ⟨_, List.mem_filter.mpr ⟨hrec, by simp⟩, rfl⟩
  · intro h hh hother
    rw [hh0] at hh
    have hh' := Option.some_injective _ hh
    subst hh'
    obtain ⟨f', hf', hf'p, hf'h⟩ := hother
    have hbucket : assocLookup (hashToFiles (scan_directory env walk)) h0 =
        some (((scan_directory env walk).filter fun f => decide (f.hash = h0)).map
          fun f => f.file_path) := by
      rw [hashToFiles, groupFold_lookup, if_pos ⟨_, hrec, rfl⟩]
    have hpmem : p ∈ ((scan_directory env walk).filter fun f => decide (f.hash = h0)).map
        fun f => f.file_path :=
      List.mem_map.mpr ⟨_, List.mem_filter.mpr ⟨hrec, by simp⟩, rfl⟩
    have hf'mem : f'.file_path ∈
        ((scan_directory env walk).filter fun f => decide (f.hash = h0)).map
          fun f => f.file_path :=
      List.mem_map.mpr ⟨f', List.mem_filter.mpr ⟨hf', by simp [hf'h]⟩, rfl⟩
    have hlen : 1 < (((scan_directory env walk).filter fun f => decide (f.hash = h0)).map
        fun f => f.file_path).length := by
      rcases hl : ((scan_directory env walk).filter fun f => decide (f.hash = h0)).map
          (fun f => f.file_path) with _ | ⟨x, rest⟩
      · rw [hl] at hpmem; simp at hpmem
      · rcases rest with _ | ⟨y, rest2⟩
        · rw [hl] at hpmem hf'mem
          rw [List.mem_singleton] at hpmem hf'mem
          exact absurd (hf'mem.trans hpmem.symm) hf'p
        · have hlen2 := congrArg List.length hl
          rw [List.length_map] at hlen2
          rw [List.length_map, hlen2]
          simp
    refine ⟨(h0, ((scan_directory env walk).filter fun f => decide (f.hash = h0)).map
        fun f => f.file_path), ?_, rfl, hpmem⟩
    rw [find_duplicates, List.mem_filter]
    constructor
    · exact (assoc_mem_iff_lookup _ _ _
        (groupFold_keys_nodup _ _ _)).mpr hbucket
    · simpa using hlen

/-- Witness for C7 at a concrete environment where perceptual hashing fails
for every file while content hashing succeeds. -/
theorem scan_record_on_fingerprint_failure_witness :
    (∃ f ∈ scan_directory
        { size := fun _ => some 3, hash := fun _ => some "h", phash := fun _ => none }
        ["/r/a.jpg", "/r/b.jpg"],
      f.file_path = "/r/a.jpg" ∧ f.file_type = FileType.image ∧
      f.phash = [] ∧ (some "h" : Option String) = some f.hash) ∧
    assocLookup (find_near_duplicate_groups (scan_directory
        { size := fun _ => some 3, hash := fun _ => some "h", phash := fun _ => none }
        ["/r/a.jpg", "/r/b.jpg"]) 20) "/r/a.jpg" = none := by
  have h := scan_record_on_fingerprint_failure
    { size := fun _ => some 3, hash := fun _ => some "h", phash := fun _ => none }
    ["/r/a.jpg", "/r/b.jpg"] "/r/a.jpg" 20
    (by decide) ⟨3, rfl⟩ ⟨"h", rfl⟩ rfl (by decide)
  exact ⟨h.1, h.2.1⟩

theorem ufStart_size (n : Nat) : (ufStart n).size = n := by
  induction n with
  | zero => rfl
  | succ n ih =>
    show ((ufStart n).push).size = n + 1
    simp [Batteries.UnionFind.push, Batteries.UnionFind.size]
    exact ih

theorem ufStart_equiv (n a b : Nat) :
    Batteries.UnionFind.Equiv (ufStart n) a b ↔ a = b := by
  induction n with
  | zero => exact Batteries.UnionFind.equiv_empty
  | succ n ih =>
    show Batteries.UnionFind.Equiv ((ufStart n).push) a b ↔ a = b
    rw [Batteries.UnionFind.equiv_push]
    exact ih

theorem unionBang_size (uf : Batteries.UnionFind) (i j : Nat)
    (hi : i < uf.size) (hj : j < uf.size) : (uf.union! i j).size = uf.size := by
  rw [Batteries.UnionFind.union!, dif_pos ⟨hi, hj⟩]
  simp [Batteries.UnionFind.union]

theorem unionBang_equiv (uf : Batteries.UnionFind) (i j : Nat)
    (hi : i < uf.size) (hj : j < uf.size) (a b : Nat) :
    Batteries.UnionFind.Equiv (uf.union! i j) a b ↔
      (Batteries.UnionFind.Equiv uf a b ∨
        (Batteries.UnionFind.Equiv uf a i ∧ Batteries.UnionFind.Equiv uf j b) ∨
        (Batteries.UnionFind.Equiv uf a j ∧ Batteries.UnionFind.Equiv uf i b)) := by
  rw [Batteries.UnionFind.union!, dif_pos ⟨hi, hj⟩]
  exact Batteries.UnionFind.equiv_union

theorem equivalence_ufEquiv (uf : Batteries.UnionFind) :
    Equivalence (Batteries.UnionFind.Equiv uf) :=
  ⟨fun _ => Batteries.UnionFind.Equiv.rfl,
   Batteries.UnionFind.Equiv.symm, Batteries.UnionFind.Equiv.trans⟩

theorem eqvGen_mono_to {α : Type} {r s : α → α → Prop}
    (h : ∀ a b, r a b → Relation.EqvGen s a b) :
    ∀ a b, Relation.EqvGen r a b → Relation.EqvGen s a b := by
  intro a b hr
  induction hr with
  | rel x y hxy => exact h x y hxy
  | refl x => exact Relation.EqvGen.refl x
  | symm x y _ ih => exact Relation.EqvGen.symm x y ih
  | trans x y z _ _ ih1 ih2 => exact Relation.EqvGen.trans x y z ih1 ih2

theorem eqvGen_congr {α : Type} {r s : α → α → Prop}
    (h1 : ∀ a b, r a b → Relation.EqvGen s a b) (h2 : ∀ a b, s a b → Relation.EqvGen r a b) (a b : α) :
    Relation.EqvGen r a b ↔ Relation.EqvGen s a b := by
  constructor
  · intro h
    have := eqvGen_mono_to h1 a b h
    exact this
  · intro h
    exact eqvGen_mono_to h2 a b h

theorem unionPairsFold_size (edge : Nat → Nat → Bool) :
    ∀ (pairs : List (Nat × Nat)) (uf : Batteries.UnionFind),
      (∀ pr ∈ pairs, pr.1 < uf.size ∧ pr.2 < uf.size) →
      (unionPairsFold edge pairs uf).size = uf.size := by
  intro pairs
  induction pairs with
  | nil => intro uf _; rfl
  | cons pr rest ih =>
    intro uf hlt
    obtain ⟨i, j⟩ := pr
    rw [unionPairsFold, List.foldl_cons]
    by_cases he : edge i j
    · rw [if_pos he]
      have hsz := unionBang_size uf i j (hlt (i, j) (List.mem_cons_self _ _)).1
        (hlt (i, j) (List.mem_cons_self _ _)).2
      rw [show List.foldl (fun uf pr => if edge pr.1 pr.2 then uf.union! pr.1 pr.2 else uf)
        (uf.union! i j) rest = unionPairsFold edge rest (uf.union! i j) from rfl]
      rw [ih (uf.union! i j) (fun q hq => by
        rw [hsz]
        exact hlt q (List.mem_cons_of_mem _ hq))]
      exact hsz
    · rw [if_neg he]
      exact ih uf fun q hq => hlt q (List.mem_cons_of_mem _ hq)

theorem unionPairsFold_equiv (edge : Nat → Nat → Bool) :
    ∀ (pairs : List (Nat × Nat)) (uf : Batteries.UnionFind),
      (∀ pr ∈ pairs, pr.1 < uf.size ∧ pr.2 < uf.size) → ∀ (a b : Nat),
      (Batteries.UnionFind.Equiv (unionPairsFold edge pairs uf) a b ↔
        Relation.EqvGen (fun x y => Batteries.UnionFind.Equiv uf x y ∨
          ((x, y) ∈ pairs ∧ edge x y = true)) a b) := by
  intro pairs
  induction pairs with
  | nil =>
    intro uf _ a b
    constructor
    · intro h
      exact Relation.EqvGen.rel a b (Or.inl h)
    · intro h
      refine (Equivalence.eqvGen_iff (equivalence_ufEquiv uf)).mp
        (eqvGen_mono_to ?_ a b h)
      rintro x y (hxy | ⟨hmem, _⟩)
      · exact Relation.EqvGen.rel x y hxy
      · exact absurd hmem (List.not_mem_nil _)
  | cons pr rest ih =>
    intro uf hlt a b
    obtain ⟨i, j⟩ := pr
    have hi := (hlt (i, j) (List.mem_cons_self _ _)).1
    have hj := (hlt (i, j) (List.mem_cons_self _ _)).2
    rw [show unionPairsFold edge ((i, j) :: rest) uf =
      unionPairsFold edge rest (if edge i j then uf.union! i j else uf) from by
      rw [unionPairsFold, unionPairsFold, List.foldl_cons]]
    by_cases he : edge i j
    · rw [if_pos he]
      have hsz := unionBang_size uf i j hi hj
      rw [ih (uf.union! i j) (fun q hq => by
        rw [hsz]; exact hlt q (List.mem_cons_of_mem _ hq)) a b]
      refine eqvGen_congr ?_ ?_ a b
      · rintro x y (hxy | ⟨hmem, hexy⟩)
        · rcases (unionBang_equiv uf i j hi hj x y).mp hxy with h | ⟨h1, h2⟩ | ⟨h1, h2⟩
          · exact Relation.EqvGen.rel x y (Or.inl h)
          · refine Relation.EqvGen.trans x i y (Relation.EqvGen.rel x i (Or.inl h1))
              (Relation.EqvGen.trans i j y (Relation.EqvGen.rel i j (Or.inr ⟨List.mem_cons_self _ _, he⟩))
                (Relation.EqvGen.rel j y (Or.inl h2)))
          · refine Relation.EqvGen.trans x j y (Relation.EqvGen.rel x j (Or.inl h1))
              (Relation.EqvGen.trans j i y
                (Relation.EqvGen.symm i j (Relation.EqvGen.rel i j (Or.inr ⟨List.mem_cons_self _ _, he⟩)))
                (Relation.EqvGen.rel i y (Or.inl h2)))
        · exact Relation.EqvGen.rel x y (Or.inr ⟨List.mem_cons_of_mem _ hmem, hexy⟩)
      · rintro x y (hxy | ⟨hmem, hexy⟩)
        · exact Relation.EqvGen.rel x y (Or.inl ((unionBang_equiv uf i j hi hj x y).mpr (Or.inl hxy)))
        · rcases List.mem_cons.mp hmem with heq | hmem'
          · have hx : x = i := congrArg Prod.fst heq
            have hy : y = j := congrArg Prod.snd heq
            subst hx; subst hy
            exact Relation.EqvGen.rel x y (Or.inl ((unionBang_equiv uf x y hi hj x y).mpr
              (Or.inr (Or.inl ⟨Batteries.UnionFind.Equiv.rfl, Batteries.UnionFind.Equiv.rfl⟩))))
          · exact Relation.EqvGen.rel x y (Or.inr ⟨hmem', hexy⟩)
    · rw [if_neg he]
      rw [ih uf (fun q hq => hlt q (List.mem_cons_of_mem _ hq)) a b]
      refine eqvGen_congr ?_ ?_ a b
      · rintro x y (hxy | ⟨hmem, hexy⟩)
        · exact Relation.EqvGen.rel x y (Or.inl hxy)
        · exact Relation.EqvGen.rel x y (Or.inr ⟨List.mem_cons_of_mem _ hmem, hexy⟩)
      · rintro x y (hxy | ⟨hmem, hexy⟩)
        · exact Relation.EqvGen.rel x y (Or.inl hxy)
        · rcases List.mem_cons.mp hmem with heq | hmem'
          · have hx : x = i := congrArg Prod.fst heq
            have hy : y = j := congrArg Prod.snd heq
            subst hx; subst hy
            rw [hexy] at he
            exact absurd rfl he
          · exact Relation.EqvGen.rel x y (Or.inr ⟨hmem', hexy⟩)

theorem allPairs_mem (n i j : Nat) : (i, j) ∈ allPairs n ↔ i < j ∧ j < n := by
  rw [allPairs, List.mem_flatten]
  constructor
  · rintro ⟨l, hl, hij⟩
    rw [List.mem_map] at hl
    obtain ⟨i', hi', rfl⟩ := hl
    rw [List.mem_map] at hij
    obtain ⟨j', hj', heq⟩ := hij
    have hii : i = i' := (congrArg Prod.fst heq).symm
    have hjj : j = j' := (congrArg Prod.snd heq).symm
    subst hii; subst hjj
    rw [List.mem_range'_1] at hj'
    rw [List.mem_range] at hi'
    omega
  · rintro ⟨hij, hjn⟩
    refine ⟨(List.range' (i + 1) (n - (i + 1))).map fun j => (i, j),
      List.mem_map.mpr ⟨i, List.mem_range.mpr (by omega), rfl⟩,
      List.mem_map.mpr ⟨j, List.mem_range'_1.mpr ⟨by omega, by omega⟩, rfl⟩⟩

theorem near_unionfind_equiv (imgs : List FileInfo) (T : Nat) (a b : Nat) :
    Batteries.UnionFind.Equiv (near_unionfind imgs T) a b ↔
      Relation.EqvGen (fun x y => (x, y) ∈ allPairs imgs.length ∧ edgeAt imgs T x y = true) a b := by
  rw [near_unionfind, unionPairsFold_equiv (edgeAt imgs T) (allPairs imgs.length)
    (ufStart imgs.length) (fun pr hpr => by
      rw [ufStart_size]
      rcases pr with ⟨i, j⟩
      have := (allPairs_mem imgs.length i j).mp hpr
      omega) a b]
  refine eqvGen_congr ?_ ?_ a b
  · rintro x y (hxy | hp)
    · rw [ufStart_equiv] at hxy
      subst hxy
      exact Relation.EqvGen.refl x
    · exact Relation.EqvGen.rel x y hp
  · intro x y hp
    exact Relation.EqvGen.rel x y (Or.inr hp)

theorem hamming_distance_symm (a b : List Bool) :
    hamming_distance a b = hamming_distance b a := by
  rw [hamming_distance, hamming_distance]
  by_cases h : a.length = b.length
  · rw [if_pos h, if_pos h.symm]
    congr 1
    suffices hcnt : ∀ (x y : List Bool),
        (x.zip y).countP (fun bc => decide (bc.1 ≠ bc.2)) =
          (y.zip x).countP (fun bc => decide (bc.1 ≠ bc.2)) by
      exact hcnt a b
    intro x
    induction x with
    | nil => intro y; cases y <;> rfl
    | cons c cs ih =>
      intro y
      cases y with
      | nil => rfl
      | cons d ds =>
        simp only [List.zip_cons_cons, List.countP_cons, ih ds]
        congr 1
        by_cases hcd : c = d
        · simp [hcd]
        · simp [hcd, Ne.symm hcd]
  · rw [if_neg h, if_neg (fun hh => h hh.symm)]

/-- The chain-step relation of the claim: two distinct clustering inputs
whose perceptual fingerprints are at Hamming distance at most `T`. -/
def nearEdge (imgs : List FileInfo) (T : Nat) (i j : Nat) : Prop :=
  i < imgs.length ∧ j < imgs.length ∧ i ≠ j ∧
  ∃ d, hamming_distance (imgs.getD i default).phash (imgs.getD j default).phash = some d ∧
    d ≤ T

theorem nearEdge_symm (imgs : List FileInfo) (T : Nat) : Symmetric (nearEdge imgs T) := by
  rintro i j ⟨hi, hj, hne, d, hd, hdT⟩
  exact ⟨hj, hi, Ne.symm hne, d, by rw [hamming_distance_symm]; exact hd, hdT⟩

theorem edgeAt_true_iff (imgs : List FileInfo) (T : Nat) (i j : Nat) :
    edgeAt imgs T i j = true ↔
      ((imgs.getD i default).phash ≠ [] ∧ (imgs.getD j default).phash ≠ [] ∧
        ∃ d, hamming_distance (imgs.getD i default).phash (imgs.getD j default).phash =
          some d ∧ d ≤ T) := by
  rw [edgeAt]
  cases hd : hamming_distance (imgs.getD i default).phash (imgs.getD j default).phash with
  | none =>
    constructor
    · intro h
      simp only [Bool.and_eq_true] at h
      exact absurd h.2 Bool.noConfusion
    · rintro ⟨_, _, d, hdd, _⟩
      exact Option.noConfusion hdd
  | some d =>
    constructor
    · intro h
      simp only [Bool.and_eq_true, Bool.not_eq_true', decide_eq_true_eq] at h
      obtain ⟨⟨h1, h2⟩, h3⟩ := h
      refine ⟨?_, ?_, d, rfl, h3⟩
      · intro hh
        rw [hh] at h1
        simp at h1
      · intro hh
        rw [hh] at h2
        simp at h2
    · rintro ⟨h1, h2, d', hdd, h3⟩
      have hde : d = d' := Option.some_injective _ hdd
      subst hde
      simp only [Bool.and_eq_true, Bool.not_eq_true', decide_eq_true_eq]
      refine ⟨⟨?_, ?_⟩, h3⟩
      · cases hph : (imgs.getD i default).phash with
        | nil => exact absurd hph h1
        | cons c cs => simp
      · cases hph : (imgs.getD j default).phash with
        | nil => exact absurd hph h2
        | cons c cs => simp

theorem conn_iff (imgs : List FileInfo) (T : Nat)
    (hne : ∀ k, k < imgs.length → (imgs.getD k default).phash ≠ []) (a b : Nat) :
    Relation.EqvGen (fun x y => (x, y) ∈ allPairs imgs.length ∧ edgeAt imgs T x y = true) a b ↔
      Relation.ReflTransGen (nearEdge imgs T) a b := by
  constructor
  · intro h
    induction h with
    | rel x y hxy =>
      obtain ⟨hmem, hedge⟩ := hxy
      obtain ⟨hxy', hyn⟩ := (allPairs_mem imgs.length x y).mp hmem
      obtain ⟨_, _, hdist⟩ := (edgeAt_true_iff imgs T x y).mp hedge
      exact Relation.ReflTransGen.single ⟨by omega, hyn, by omega, hdist⟩
    | refl x => exact Relation.ReflTransGen.refl
    | symm x y _ ih => exact (Relation.ReflTransGen.symmetric (nearEdge_symm imgs T)) ih
    | trans x y z _ _ ih1 ih2 => exact Relation.ReflTransGen.trans ih1 ih2
  · intro h
    induction h with
    | refl => exact Relation.EqvGen.refl a
    | tail _ hbc ih =>
      rename_i b' c' _
      refine Relation.EqvGen.trans _ _ _ ih ?_
      obtain ⟨hb, hc, hbne, d, hd, hdT⟩ := hbc
      rcases Nat.lt_or_ge b' c' with hlt | hge
      · exact Relation.EqvGen.rel _ _ ⟨(allPairs_mem imgs.length b' c').mpr ⟨hlt, hc⟩,
          (edgeAt_true_iff imgs T b' c').mpr ⟨hne b' hb, hne c' hc, d, hd, hdT⟩⟩
      · have hlt' : c' < b' := by omega
        refine Relation.EqvGen.symm _ _ (Relation.EqvGen.rel _ _
          ⟨(allPairs_mem imgs.length c' b').mpr ⟨hlt', hb⟩,
           (edgeAt_true_iff imgs T c' b').mpr ⟨hne c' hc, hne b' hb, d, ?_, hdT⟩⟩)
        rw [hamming_distance_symm]
        exact hd

theorem rootD_eq_iff_conn (imgs : List FileInfo) (T : Nat)
    (hne : ∀ k, k < imgs.length → (imgs.getD k default).phash ≠ []) (a b : Nat) :
    (near_unionfind imgs T).rootD a = (near_unionfind imgs T).rootD b ↔
      Relation.ReflTransGen (nearEdge imgs T) a b := by
  rw [show ((near_unionfind imgs T).rootD a = (near_unionfind imgs T).rootD b) =
    Batteries.UnionFind.Equiv (near_unionfind imgs T) a b from rfl]
  rw [near_unionfind_equiv]
  exact conn_iff imgs T hne a b

theorem countP_le_one_of_keyed (gs : List (Nat × List Nat)) (p : Nat × List Nat → Bool)
    (r : Nat) (hknd : (gs.map Prod.fst).Nodup) (hpred : ∀ g ∈ gs, p g = true → g.1 = r) :
    gs.countP p ≤ 1 := by
  induction gs with
  | nil => simp
  | cons g rest ih =>
    rw [List.countP_cons]
    simp only [List.map_cons, List.nodup_cons] at hknd
    by_cases hg : p g = true
    · have hg1 : g.1 = r := hpred g (List.mem_cons_self g rest) hg
      have hrest : rest.countP p = 0 := by
        rw [List.countP_eq_zero]
        intro g' hg' hpg'
        have hk : g'.1 = r := hpred g' (List.mem_cons_of_mem _ hg') hpg'
        exact hknd.1 (List.mem_map.mpr ⟨g', hg', by rw [hk, hg1]⟩)
      rw [hrest, if_pos hg]
    · have hg' : p g = false := by revert hg; cases p g <;> simp
      rw [hg']
      have := ih hknd.2 fun g' h' hp => hpred g' (List.mem_cons_of_mem _ h') hp
      simp only [Bool.false_eq_true, if_false]
      omega

theorem groupsByRoot_mem_char (U : Batteries.UnionFind) (n : Nat) (r : Nat)
    (idxs : List Nat) :
    (r, idxs) ∈ groupsByRoot U n ↔
      ((∃ i ∈ List.range n, U.rootD i = r) ∧
        idxs = (List.range n).filter fun j => decide (U.rootD j = r)) := by
  rw [groupsByRoot]
  rw [assoc_mem_iff_lookup _ _ _ (groupFold_keys_nodup _ _ _), groupFold_lookup]
  by_cases hc : ∃ i ∈ List.range n, U.rootD i = r
  · rw [if_pos hc]
    constructor
    · intro h
      refine ⟨hc, ?_⟩
      have heq := Option.some_injective _ h
      rw [← heq]
      simp
    · rintro ⟨_, rfl⟩
      congr 1
      simp
  · rw [if_neg hc]
    constructor
    · intro h
      exact absurd h Option.noConfusion
    · rintro ⟨hex, _⟩
      exact absurd hex hc

theorem assoc_mem_same_key {κ β : Type} [DecidableEq κ] (m : List (κ × β)) (k : κ)
    (v1 v2 : β) (hnd : (m.map Prod.fst).Nodup) (h1 : (k, v1) ∈ m) (h2 : (k, v2) ∈ m) :
    v1 = v2 := by
  have e1 := (assoc_mem_iff_lookup m k v1 hnd).mp h1
  have e2 := (assoc_mem_iff_lookup m k v2 hnd).mp h2
  rw [e1] at e2
  exact Option.some_injective _ e2

theorem findIdx?_some_spec {α : Type} (l : List α) (p : α → Bool) (t : Nat)
    (h : l.findIdx? p = some t) : ∃ ht : t < l.length, p (l.get ⟨t, ht⟩) = true := by
  induction l generalizing t with
  | nil => simp at h
  | cons a rest ih =>
    rw [List.findIdx?_cons] at h
    by_cases hp : p a
    · rw [if_pos hp] at h
      have ht0 : t = 0 := (Option.some_injective _ h).symm
      subst ht0
      exact ⟨by simp, hp⟩
    · rw [if_neg hp, List.findIdx?_start_succ] at h
      cases hf : rest.findIdx? p with
      | none =>
        rw [hf] at h
        simp at h
      | some t' =>
        rw [hf] at h
        simp only [Option.map_some'] at h
        have htt : t = t' + 1 := by
          have := Option.some_injective _ h
          omega
        subst htt
        obtain ⟨ht', hp'⟩ := ih t' hf
        exact ⟨by simpa using ht', by simpa using hp'⟩

theorem findIdx?_unique {α : Type} (l : List α) (p : α → Bool) (t : Nat) (ht : t < l.length)
    (hp : p (l.get ⟨t, ht⟩) = true)
    (huniq : ∀ s (hs : s < l.length), p (l.get ⟨s, hs⟩) = true → s = t) :
    l.findIdx? p = some t := by
  induction l generalizing t with
  | nil => simp at ht
  | cons a rest ih =>
    rw [List.findIdx?_cons]
    by_cases hpa : p a
    · rw [if_pos hpa]
      have h0 := huniq 0 (by simp) (by simpa using hpa)
      rw [← h0]
    · rw [if_neg hpa]
      cases t with
      | zero =>
        rw [show (a :: rest).get ⟨0, ht⟩ = a from rfl] at hp
        exact absurd hp hpa
      | succ t' =>
        have ht' : t' < rest.length := by
          simp only [List.length_cons] at ht
          omega
        have hp' : p (rest.get ⟨t', ht'⟩) = true := by simpa using hp
        have huniq' : ∀ s (hs : s < rest.length), p (rest.get ⟨s, hs⟩) = true → s = t' := by
          intro s hs hps
          have hss := huniq (s + 1) (by simp only [List.length_cons]; omega)
            (by simpa using hps)
          omega
        rw [List.findIdx?_start_succ, ih t' ht' hp' huniq']
        simp

theorem findIdx?_congr {α : Type} (l : List α) (p q : α → Bool) (h : ∀ x ∈ l, p x = q x) :
    l.findIdx? p = l.findIdx? q := by
  induction l with
  | nil => rfl
  | cons a rest ih =>
    rw [List.findIdx?_cons, List.findIdx?_cons, h a (List.mem_cons_self a rest),
      List.findIdx?_start_succ, List.findIdx?_start_succ,
      ih fun x hx => h x (List.mem_cons_of_mem _ hx)]

theorem ndLabel_ne_unique (k : Nat) : ("nd_group_" ++ Nat.repr k) ≠ "unique" := by
  intro h
  have hlen := congrArg String.length h
  rw [String.length_append] at hlen
  have h1 : ("nd_group_" : String).length = 9 := rfl
  have h2 : ("unique" : String).length = 6 := rfl
  omega

theorem ndLabel_inj (k1 k2 : Nat) (h : "nd_group_" ++ Nat.repr k1 = "nd_group_" ++ Nat.repr k2) :
    k1 = k2 := by
  apply Nat_repr_injective
  have hd := congrArg String.data h
  simp only [String.data_append] at hd
  have hdc := List.append_cancel_left hd
  cases hr1 : Nat.repr k1 with
  | mk d1 =>
    cases hr2 : Nat.repr k2 with
    | mk d2 =>
      rw [hr1, hr2] at hdc
      exact congrArg String.mk hdc

theorem one_lt_length_of_two_mem {α : Type} (l : List α) (x y : α) (hx : x ∈ l) (hy : y ∈ l)
    (hne : x ≠ y) : 1 < l.length := by
  cases l with
  | nil => simp at hx
  | cons a rest =>
    cases rest with
    | nil =>
      rw [List.mem_singleton] at hx hy
      exact absurd (hx.trans hy.symm) hne
    | cons b rest2 =>
      simp only [List.length_cons]
      omega

theorem getD_eq_get {α : Type} [Inhabited α] (l : List α) (i : Nat) (h : i < l.length) :
    l.getD i default = l.get ⟨i, h⟩ := by
  rw [List.getD_eq_getElem?_getD, List.getElem?_eq_getElem h]
  rfl

theorem assocLookup_unique_some (imgs : List FileInfo) (p : String)
    (h : ∃ f ∈ imgs, f.file_path = p) :
    assocLookup (imgs.map fun f => (f.file_path, "unique")) p = some "unique" := by
  induction imgs with
  | nil => simp at h
  | cons f rest ih =>
    simp only [List.map_cons, assocLookup]
    by_cases hf : f.file_path = p
    · rw [if_pos hf]
    · rw [if_neg hf]
      apply ih
      obtain ⟨g, hg, hgp⟩ := h
      rcases List.mem_cons.mp hg with rfl | hg'
      · exact absurd hgp hf
      · exact ⟨g, hg', hgp⟩

theorem image_files_phash_ne (files_data : List FileInfo) :
    ∀ k, k < (image_files_of files_data).length →
      ((image_files_of files_data).getD k default).phash ≠ [] := by
  intro k hk hcon
  have hmem := getD_mem_of_lt (image_files_of files_data) k hk
  have hmem' : ((image_files_of files_data).getD k default) ∈
      files_data.filter (fun f => decide (f.file_type = FileType.image) && !f.phash.isEmpty) :=
    hmem
  rw [List.mem_filter, Bool.and_eq_true] at hmem'
  have h2 := hmem'.2.2
  rw [hcon] at h2
  simp at h2

theorem image_files_paths_inj (files_data : List FileInfo)
    (hpaths : ((image_files_of files_data).map fun f => f.file_path).Nodup) :
    ∀ j i, j < (image_files_of files_data).length → i < (image_files_of files_data).length →
      ((image_files_of files_data).getD j default).file_path =
        ((image_files_of files_data).getD i default).file_path → j = i := by
  intro j i hj hi heq
  rw [getD_eq_get _ _ hj, getD_eq_get _ _ hi] at heq
  have hmap : ∀ (k : Nat) (hk : k < (image_files_of files_data).length),
      ((image_files_of files_data).map fun f => f.file_path).get
        ⟨k, by rw [List.length_map]; exact hk⟩ =
      ((image_files_of files_data).get ⟨k, hk⟩).file_path := by
    intro k hk
    simp
  have hinj := List.nodup_iff_injective_get.mp hpaths
  have hg : ((image_files_of files_data).map fun f => f.file_path).get
      ⟨j, by rw [List.length_map]; exact hj⟩ =
    ((image_files_of files_data).map fun f => f.file_path).get
      ⟨i, by rw [List.length_map]; exact hi⟩ := by
    rw [hmap j hj, hmap i hi]
    exact heq
  have := hinj hg
  exact congrArg Fin.val this

theorem labelAt_char (files_data : List FileInfo) (T : Nat)
    (hpaths : ((image_files_of files_data).map fun f => f.file_path).Nodup)
    (i : Nat) (hi : i < (image_files_of files_data).length) :
    assocLookup (find_near_duplicate_groups files_data T)
        ((image_files_of files_data).getD i default).file_path =
      match ((groupsByRoot (near_unionfind (image_files_of files_data) T)
            (image_files_of files_data).length).filter
          fun g => decide (1 < g.2.length)).findIdx?
          (fun g => decide (g.1 = (near_unionfind (image_files_of files_data) T).rootD i)) with
      | some t => some ("nd_group_" ++ Nat.repr (1 + t))
      | none => some "unique" := by
  have hnonempty : (image_files_of files_data).isEmpty = false := by
    cases himgs : image_files_of files_data with
    | nil => rw [himgs] at hi; simp at hi
    | cons f rest => rfl
  have hknd : ((groupsByRoot (near_unionfind (image_files_of files_data) T)
      (image_files_of files_data).length).map Prod.fst).Nodup :=
    groupFold_keys_nodup _ _ _
  have hpred : ∀ g ∈ groupsByRoot (near_unionfind (image_files_of files_data) T)
      (image_files_of files_data).length,
      (g.2.any fun idx => decide (((image_files_of files_data).getD idx default).file_path =
        ((image_files_of files_data).getD i default).file_path)) = true →
      g.1 = (near_unionfind (image_files_of files_data) T).rootD i := by
    intro g hg hany
    obtain ⟨idx, hidx, hpix⟩ := List.any_eq_true.mp hany
    obtain ⟨_, hchar⟩ :=
      (groupsByRoot_mem_char (near_unionfind (image_files_of files_data) T)
        (image_files_of files_data).length g.1 g.2).mp hg
    rw [hchar] at hidx
    have hidxn : idx < (image_files_of files_data).length :=
      List.mem_range.mp (List.mem_filter.mp hidx).1
    have hroot : (near_unionfind (image_files_of files_data) T).rootD idx = g.1 := by
      have := (List.mem_filter.mp hidx).2
      simpa using this
    have hii : idx = i := image_files_paths_inj files_data hpaths idx i hidxn hi
      (by simpa using hpix)
    rw [← hii, hroot]
  have hcount : (groupsByRoot (near_unionfind (image_files_of files_data) T)
      (image_files_of files_data).length).countP
      (fun g => g.2.any fun idx =>
        decide (((image_files_of files_data).getD idx default).file_path =
          ((image_files_of files_data).getD i default).file_path)) ≤ 1 :=
    countP_le_one_of_keyed _ _ _ hknd hpred
  rw [find_near_duplicate_groups, if_neg (by rw [hnonempty]; exact Bool.noConfusion)]
  rw [assignLabels_lookup _ _ _ _ _ hcount]
  have hcongr := findIdx?_congr
    ((groupsByRoot (near_unionfind (image_files_of files_data) T)
        (image_files_of files_data).length).filter fun g => decide (1 < g.2.length))
    (fun g => g.2.any fun idx =>
      decide (((image_files_of files_data).getD idx default).file_path =
        ((image_files_of files_data).getD i default).file_path))
    (fun g => decide (g.1 = (near_unionfind (image_files_of files_data) T).rootD i))
    (by
      intro g hg
      have hgs := (List.mem_filter.mp hg).1
      obtain ⟨_, hchar⟩ :=
        (groupsByRoot_mem_char (near_unionfind (image_files_of files_data) T)
          (image_files_of files_data).length g.1 g.2).mp hgs
      by_cases hkey : g.1 = (near_unionfind (image_files_of files_data) T).rootD i
      · have h1 : (g.2.any fun idx =>
            decide (((image_files_of files_data).getD idx default).file_path =
              ((image_files_of files_data).getD i default).file_path)) = true := by
          rw [List.any_eq_true]
          refine ⟨i, ?_, by simp⟩
          rw [hchar]
          exact List.mem_filter.mpr ⟨List.mem_range.mpr hi, by simp [hkey]⟩
        exact h1.trans (decide_eq_true hkey).symm
      · have h1 : (g.2.any fun idx =>
            decide (((image_files_of files_data).getD idx default).file_path =
              ((image_files_of files_data).getD i default).file_path)) = false := by
          rw [List.any_eq_false]
          intro idx hidx
          simp only [decide_eq_true_eq]
          intro hpath
          rw [hchar] at hidx
          have hidxn : idx < (image_files_of files_data).length :=
            List.mem_range.mp (List.mem_filter.mp hidx).1
          have hroot : (near_unionfind (image_files_of files_data) T).rootD idx = g.1 := by
            have := (List.mem_filter.mp hidx).2
            simpa using this
          have hii : idx = i := image_files_paths_inj files_data hpaths idx i hidxn hi hpath
          rw [hii] at hroot
          exact hkey hroot.symm
        exact h1.trans (decide_eq_false hkey).symm)
  rw [hcongr]
  cases hf : ((groupsByRoot (near_unionfind (image_files_of files_data) T)
        (image_files_of files_data).length).filter fun g => decide (1 < g.2.length)).findIdx?
      (fun g => decide (g.1 = (near_unionfind (image_files_of files_data) T).rootD i)) with
  | none =>
    exact assocLookup_unique_some _ _
      ⟨(image_files_of files_data).getD i default, getD_mem_of_lt _ _ hi, rfl⟩
  | some t => rfl

theorem exists_ne_mem_of_big {α : Type} (l : List α) (x : α) (hx : x ∈ l)
    (hlen : 1 < l.length) (hnd : l.Nodup) : ∃ y ∈ l, y ≠ x := by
  cases l with
  | nil => simp at hx
  | cons a rest =>
    cases rest with
    | nil => simp at hlen
    | cons b rest2 =>
      have hab : a ≠ b := by
        rw [List.nodup_cons] at hnd
        intro hcon
        exact hnd.1 (hcon ▸ List.mem_cons_self b rest2)
      by_cases hxa : x = a
      · exact ⟨b, List.mem_cons_of_mem a (List.mem_cons_self b rest2),
          fun hcon => hab (hxa ▸ hcon).symm⟩
      · exact ⟨a, List.mem_cons_self a _, fun hcon => hxa hcon.symm⟩

theorem big_iff_exists_other (U : Batteries.UnionFind) (n i : Nat) (hi : i < n) :
    1 < ((List.range n).filter fun j => decide (U.rootD j = U.rootD i)).length ↔
      ∃ k, k < n ∧ k ≠ i ∧ U.rootD k = U.rootD i := by
  have himem : i ∈ (List.range n).filter fun j => decide (U.rootD j = U.rootD i) :=
    List.mem_filter.mpr ⟨List.mem_range.mpr hi, by simp⟩
  constructor
  · intro hbig
    obtain ⟨k, hk, hki⟩ := exists_ne_mem_of_big _ i himem hbig
      ((List.nodup_range n).filter _)
    have hk' := List.mem_filter.mp hk
    exact ⟨k, List.mem_range.mp hk'.1, hki, by simpa using hk'.2⟩
  · rintro ⟨k, hk, hki, hkr⟩
    have hkmem : k ∈ (List.range n).filter fun j => decide (U.rootD j = U.rootD i) :=
      List.mem_filter.mpr ⟨List.mem_range.mpr hk, by simp [hkr]⟩
    exact one_lt_length_of_two_mem _ k i hkmem himem hki

theorem posKey_some_iff_big (U : Batteries.UnionFind) (n i : Nat) (hi : i < n) :
    (∃ t, ((groupsByRoot U n).filter fun g => decide (1 < g.2.length)).findIdx?
        (fun g => decide (g.1 = U.rootD i)) = some t) ↔
      1 < ((List.range n).filter fun j => decide (U.rootD j = U.rootD i)).length := by
  constructor
  · rintro ⟨t, ht⟩
    obtain ⟨hlt, hpget⟩ := findIdx?_some_spec _ _ _ ht
    set g := (((groupsByRoot U n).filter fun g => decide (1 < g.2.length)).get ⟨t, hlt⟩)
      with hgdef
    have hg : g ∈ (groupsByRoot U n).filter fun g => decide (1 < g.2.length) :=
      List.get_mem _ _ _
    have hgs := (List.mem_filter.mp hg).1
    have hbig : 1 < g.2.length := by
      have := (List.mem_filter.mp hg).2
      simpa using this
    obtain ⟨_, hchar⟩ := (groupsByRoot_mem_char U n g.1 g.2).mp hgs
    have hkey : g.1 = U.rootD i := by
      simpa using hpget
    rw [hchar, hkey] at hbig
    exact hbig
  · intro hbig
    have hentry : (U.rootD i, (List.range n).filter fun j => decide (U.rootD j = U.rootD i)) ∈
        groupsByRoot U n :=
      (groupsByRoot_mem_char U n _ _).mpr ⟨⟨i, List.mem_range.mpr hi, rfl⟩, rfl⟩
    have hentryb : (U.rootD i, (List.range n).filter fun j => decide (U.rootD j = U.rootD i)) ∈
        (groupsByRoot U n).filter fun g => decide (1 < g.2.length) :=
      List.mem_filter.mpr ⟨hentry, by simpa using hbig⟩
    cases hf : ((groupsByRoot U n).filter fun g => decide (1 < g.2.length)).findIdx?
        (fun g => decide (g.1 = U.rootD i)) with
    | some t => exact ⟨t, rfl⟩
    | none =>
      exfalso
      rw [List.findIdx?_eq_none_iff] at hf
      have := hf _ hentryb
      simp at this

theorem posKey_some_root (U : Batteries.UnionFind) (n i t : Nat)
    (h : ((groupsByRoot U n).filter fun g => decide (1 < g.2.length)).findIdx?
      (fun g => decide (g.1 = U.rootD i)) = some t) :
    ∃ hlt : t < ((groupsByRoot U n).filter fun g => decide (1 < g.2.length)).length,
      (((groupsByRoot U n).filter fun g => decide (1 < g.2.length)).get ⟨t, hlt⟩).1 =
        U.rootD i := by
  obtain ⟨hlt, hp⟩ := findIdx?_some_spec _ _ _ h
  exact ⟨hlt, by simpa using hp⟩

theorem bigs_keys_nodup (U : Batteries.UnionFind) (n : Nat) :
    ((((groupsByRoot U n).filter fun g => decide (1 < g.2.length)).map Prod.fst)).Nodup :=
  List.Nodup.sublist (List.Sublist.map Prod.fst (List.filter_sublist _))
    (groupFold_keys_nodup _ _ _)

theorem posKey_surjective (U : Batteries.UnionFind) (n t : Nat)
    (ht : t < ((groupsByRoot U n).filter fun g => decide (1 < g.2.length)).length) :
    ∃ i, i < n ∧ ((groupsByRoot U n).filter fun g => decide (1 < g.2.length)).findIdx?
      (fun g => decide (g.1 = U.rootD i)) = some t := by
  set bigs := (groupsByRoot U n).filter fun g => decide (1 < g.2.length) with hbigs
  set g := bigs.get ⟨t, ht⟩ with hgdef
  have hg : g ∈ bigs := List.get_mem _ _ _
  have hgs := (List.mem_filter.mp hg).1
  obtain ⟨⟨i0, hi0, hroot⟩, hchar⟩ := (groupsByRoot_mem_char U n g.1 g.2).mp hgs
  refine ⟨i0, List.mem_range.mp hi0, ?_⟩
  have hpred : ∀ g' : Nat × List Nat,
      (decide (g'.1 = U.rootD i0) : Bool) = decide (g'.1 = g.1) := by
    intro g'
    rw [hroot]
  rw [findIdx?_congr bigs _ _ fun x _ => hpred x]
  apply findIdx?_unique bigs _ t ht (by simp [hgdef, List.get_eq_getElem])
  intro s hs hps
  have hskey : (bigs.get ⟨s, hs⟩).1 = g.1 := by simpa using hps
  have hknd := bigs_keys_nodup U n
  have hinj := List.nodup_iff_injective_get.mp hknd
  have hmapget : ∀ (k : Nat) (hk : k < bigs.length),
      (bigs.map Prod.fst).get ⟨k, by rw [List.length_map]; exact hk⟩ =
        (bigs.get ⟨k, hk⟩).1 := by
    intro k hk
    simp
  have heq : (bigs.map Prod.fst).get ⟨s, by rw [List.length_map]; exact hs⟩ =
      (bigs.map Prod.fst).get ⟨t, by rw [List.length_map]; exact ht⟩ := by
    rw [hmapget s hs, hmapget t ht, hskey]
  exact congrArg Fin.val (hinj heq)

/-- C4: for clustering inputs (image records with non-empty fingerprints) with
distinct paths and any threshold `T`, `find_near_duplicate_groups` gives two
inputs the same non-"unique" label exactly when they are connected by a chain
of pairwise Hamming distances each at most `T` and their component has at
least two members; an input is labelled "unique" exactly when its component
is a singleton; and the non-"unique" labels are `nd_group_t` with `t`
forming the contiguous range 1, 2, ... (every label value up to any assigned
`t` is also assigned). -/
theorem find_near_duplicate_groups_spec (files_data : List FileInfo) (T : Nat)
    (hpaths : ((image_files_of files_data).map fun f => f.file_path).Nodup) :
    (∀ i j, i < (image_files_of files_data).length → j < (image_files_of files_data).length →
      ((assocLookup (find_near_duplicate_groups files_data T)
          ((image_files_of files_data).getD i default).file_path =
        assocLookup (find_near_duplicate_groups files_data T)
          ((image_files_of files_data).getD j default).file_path ∧
        assocLookup (find_near_duplicate_groups files_data T)
          ((image_files_of files_data).getD i default).file_path ≠ some "unique") ↔
       (Relation.ReflTransGen (nearEdge (image_files_of files_data) T) i j ∧
        ∃ k, k < (image_files_of files_data).length ∧ k ≠ i ∧
          Relation.ReflTransGen (nearEdge (image_files_of files_data) T) i k))) ∧
    (∀ i, i < (image_files_of files_data).length →
      (assocLookup (find_near_duplicate_groups files_data T)
          ((image_files_of files_data).getD i default).file_path = some "unique" ↔
       ¬∃ k, k < (image_files_of files_data).length ∧ k ≠ i ∧
          Relation.ReflTransGen (nearEdge (image_files_of files_data) T) i k)) ∧
    (∀ i, i < (image_files_of files_data).length →
      assocLookup (find_near_duplicate_groups files_data T)
          ((image_files_of files_data).getD i default).file_path = some "unique" ∨
      ∃ t, 1 ≤ t ∧
        assocLookup (find_near_duplicate_groups files_data T)
            ((image_files_of files_data).getD i default).file_path =
          some ("nd_group_" ++ Nat.repr t) ∧
        ∀ s, 1 ≤ s → s ≤ t → ∃ j, j < (image_files_of files_data).length ∧
          assocLookup (find_near_duplicate_groups files_data T)
              ((image_files_of files_data).getD j default).file_path =
            some ("nd_group_" ++ Nat.repr s)) := by
  have hconn : ∀ a b : Nat,
      ((near_unionfind (image_files_of files_data) T).rootD a =
        (near_unionfind (image_files_of files_data) T).rootD b) ↔
      Relation.ReflTransGen (nearEdge (image_files_of files_data) T) a b :=
    rootD_eq_iff_conn (image_files_of files_data) T (image_files_phash_ne files_data)
  refine ⟨?_, ?_, ?_⟩
  · intro i j hi hj
    rw [labelAt_char files_data T hpaths i hi, labelAt_char files_data T hpaths j hj]
    cases hfi : ((groupsByRoot (near_unionfind (image_files_of files_data) T)
          (image_files_of files_data).length).filter
        fun g => decide (1 < g.2.length)).findIdx?
        (fun g => decide (g.1 = (near_unionfind (image_files_of files_data) T).rootD i)) with
    | none =>
      cases hfj : ((groupsByRoot (near_unionfind (image_files_of files_data) T)
            (image_files_of files_data).length).filter
          fun g => decide (1 < g.2.length)).findIdx?
          (fun g => decide (g.1 = (near_unionfind (image_files_of files_data) T).rootD j)) with
      | none =>
        constructor
        · rintro ⟨_, hne⟩
          exact absurd rfl hne
        · rintro ⟨_, k, hk, hki, hconnik⟩
          exfalso
          have hbig := (big_iff_exists_other _ _ i hi).mpr ⟨k, hk, hki, (hconn k i).mpr
            ((Relation.ReflTransGen.symmetric (nearEdge_symm _ _)) hconnik)⟩
          obtain ⟨t, ht⟩ := (posKey_some_iff_big _ _ i hi).mpr hbig
          rw [hfi] at ht
          exact Option.noConfusion ht
      | some t =>
        constructor
        · rintro ⟨heq, _⟩
          exact absurd (Option.some_injective _ heq).symm (ndLabel_ne_unique (1 + t))
        · rintro ⟨_, k, hk, hki, hconnik⟩
          exfalso
          have hbig := (big_iff_exists_other _ _ i hi).mpr ⟨k, hk, hki, (hconn k i).mpr
            ((Relation.ReflTransGen.symmetric (nearEdge_symm _ _)) hconnik)⟩
          obtain ⟨t', ht'⟩ := (posKey_some_iff_big _ _ i hi).mpr hbig
          rw [hfi] at ht'
          exact Option.noConfusion ht'
    | some t1 =>
      have hroot1 := posKey_some_root _ _ i t1 hfi
      have hbig1 := (posKey_some_iff_big _ _ i hi).mp ⟨t1, hfi⟩
      have hother : ∃ k, k < (image_files_of files_data).length ∧ k ≠ i ∧
          Relation.ReflTransGen (nearEdge (image_files_of files_data) T) i k := by
        obtain ⟨k, hk, hki, hkr⟩ := (big_iff_exists_other _ _ i hi).mp hbig1
        exact ⟨k, hk, hki, (hconn i k).mp hkr.symm⟩
      cases hfj : ((groupsByRoot (near_unionfind (image_files_of files_data) T)
            (image_files_of files_data).length).filter
          fun g => decide (1 < g.2.length)).findIdx?
          (fun g => decide (g.1 = (near_unionfind (image_files_of files_data) T).rootD j)) with
      | none =>
        constructor
        · rintro ⟨heq, _⟩
          exact absurd (Option.some_injective _ heq) (ndLabel_ne_unique (1 + t1))
        · rintro ⟨hconnij, _⟩
          exfalso
          have hr := (hconn i j).mpr hconnij
          rw [← hr] at hfj
          rw [hfj] at hfi
          exact Option.noConfusion hfi
      | some t2 =>
        have hroot2 := posKey_some_root _ _ j t2 hfj
        constructor
        · rintro ⟨heq, _⟩
          have ht12 : 1 + t1 = 1 + t2 := ndLabel_inj _ _ (Option.some_injective _ heq)
          have htt : t1 = t2 := by omega
          subst htt
          obtain ⟨hlt1, hkey1⟩ := hroot1
          obtain ⟨hlt2, hkey2⟩ := hroot2
          have hr : (near_unionfind (image_files_of files_data) T).rootD i =
              (near_unionfind (image_files_of files_data) T).rootD j := by
            rw [← hkey1]
            exact hkey2
          exact ⟨(hconn i j).mp hr, hother⟩
        · rintro ⟨hconnij, _⟩
          have hr := (hconn i j).mpr hconnij
          rw [← hr] at hfj
          rw [hfj] at hfi
          have htt : t2 = t1 := Option.some_injective _ hfi
          refine ⟨by rw [htt], ?_⟩
          intro heq
          exact ndLabel_ne_unique (1 + t1) (Option.some_injective _ heq)
  · intro i hi
    rw [labelAt_char files_data T hpaths i hi]
    cases hfi : ((groupsByRoot (near_unionfind (image_files_of files_data) T)
          (image_files_of files_data).length).filter
        fun g => decide (1 < g.2.length)).findIdx?
        (fun g => decide (g.1 = (near_unionfind (image_files_of files_data) T).rootD i)) with
    | none =>
      constructor
      · intro _
        rintro ⟨k, hk, hki, hconnik⟩
        have hbig := (big_iff_exists_other _ _ i hi).mpr ⟨k, hk, hki, (hconn k i).mpr
          ((Relation.ReflTransGen.symmetric (nearEdge_symm _ _)) hconnik)⟩
        obtain ⟨t, ht⟩ := (posKey_some_iff_big _ _ i hi).mpr hbig
        rw [hfi] at ht
        exact Option.noConfusion ht
      · intro _
        rfl
    | some t =>
      constructor
      · intro heq
        exact absurd (Option.some_injective _ heq) (ndLabel_ne_unique (1 + t))
      · intro hno
        exfalso
        apply hno
        have hbig := (posKey_some_iff_big _ _ i hi).mp ⟨t, hfi⟩
        obtain ⟨k, hk, hki, hkr⟩ := (big_iff_exists_other _ _ i hi).mp hbig
        exact ⟨k, hk, hki, (hconn i k).mp hkr.symm⟩
  · intro i hi
    rw [labelAt_char files_data T hpaths i hi]
    cases hfi : ((groupsByRoot (near_unionfind (image_files_of files_data) T)
          (image_files_of files_data).length).filter
        fun g => decide (1 < g.2.length)).findIdx?
        (fun g => decide (g.1 = (near_unionfind (image_files_of files_data) T).rootD i)) with
    | none =>
      left
      rfl
    | some t =>
      right
      refine ⟨1 + t, by omega, rfl, ?_⟩
      intro s hs1 hst
      obtain ⟨htlen, _⟩ := findIdx?_some_spec _ _ _ hfi
      have hslen : s - 1 < ((groupsByRoot (near_unionfind (image_files_of files_data) T)
          (image_files_of files_data).length).filter
          fun g => decide (1 < g.2.length)).length := by omega
      obtain ⟨j, hjn, hjf⟩ := posKey_surjective (near_unionfind (image_files_of files_data) T)
        (image_files_of files_data).length (s - 1) hslen
      refine ⟨j, hjn, ?_⟩
      rw [labelAt_char files_data T hpaths j hjn, hjf]
      have hss : 1 + (s - 1) = s := by omega
      simp only [hss]

/-- Demo clustering input: two image records with distinct paths and
non-empty fingerprints. -/
def demoNear : List FileInfo :=
  [{ file_path := "/r/a.jpg", file_size_bytes := 1, file_type := FileType.image,
     hash := "h1", phash := [true, false] },
   { file_path := "/r/c.png", file_size_bytes := 2, file_type := FileType.image,
     hash := "h2", phash := [true, true] }]

/-- Witness for C4: the singleton characterisation instantiated at the demo
input at index 0. -/
theorem find_near_duplicate_groups_spec_witness :
    assocLookup (find_near_duplicate_groups demoNear 20)
        ((image_files_of demoNear).getD 0 default).file_path = some "unique" ↔
      ¬∃ k, k < (image_files_of demoNear).length ∧ k ≠ 0 ∧
        Relation.ReflTransGen (nearEdge (image_files_of demoNear) 20) 0 k :=
  (find_near_duplicate_groups_spec demoNear 20 (by decide)).2.1 0 (by decide)
